import Mathlib

set_option maxRecDepth 8000

/-! Shallow embedding of the corefsjs virtual filesystem facade
    (src/corefs.ts) and its in-memory driver
    (src/drivers/inmemory-corevfs-driver.ts, together with the revised
    driver revision bundled in src/index.ts).

    Modelling conventions:
    * JavaScript strings are lists of characters (`JStr`);
    * `Uint8Array` buffers are lists of naturals;
    * the mutable `Map<string, Uint8Array>` is an association list;
    * `Date.now()` is an explicit `now : Nat` parameter (all timestamps
      produced inside a single facade call share it; no property proved
      here depends on timestamp values);
    * driver objects are identified by an index (`driverId`) into a
      world `List DriverState`; JavaScript reference equality of driver
      objects (`src.driver !== dst.driver`) is equality of indices;
    * thrown exceptions are values of `Except VErr`;
    * the recursive cross-mount copy carries a fuel argument; fuel
      exhaustion returns `(.ok false)` and is unreachable whenever the
      fuel exceeds the depth of the tree being copied. -/

/-- JavaScript strings modelled as character lists. -/
abbrev JStr := List Char

/-- Embed a Lean string literal as a `JStr`. -/
def js (s : String) : JStr := s.data

/-- Last slash-separated segment of a path (empty when the path ends in a slash). -/
def lastSeg (p : JStr) : JStr := (p.reverse.takeWhile (fun c => c ≠ '/')).reverse

/-- `path.split('/').pop() || path`: the last segment, or the whole path
    when that segment is the empty string (which is falsy in JS). -/
def jsName (p : JStr) : JStr := if lastSeg p = [] then p else lastSeg p

/-- `path.substring(0, path.lastIndexOf('/'))`; empty when the path has no slash
    (`lastIndexOf` is `-1` and `substring` clamps the negative end to `0`). -/
def parentPath (p : JStr) : JStr :=
  if p.contains '/' then ((p.reverse.dropWhile (fun c => c ≠ '/')).drop 1).reverse else []

/-- JavaScript `s.replace(pat, rep)` with string arguments replaces only
    the first occurrence of `pat`. -/
def replaceOnce (pat rep : JStr) : JStr → JStr
  | [] => []
  | c :: rest =>
    if pat.isPrefixOf (c :: rest) then rep ++ (c :: rest).drop pat.length
    else c :: replaceOnce pat rep rest

/-- FileDescriptor, mirroring src/file-descriptor.ts. -/
structure FileDescriptor where
  path : JStr
  parent : Int
  name : JStr
  size : Int
  isDirectory : Bool
  createdAt : Nat
  modifiedAt : Nat
deriving DecidableEq, Repr

/-- VFile, mirroring src/vfile.ts: a thin wrapper around one descriptor. -/
structure VFile where
  descriptor : FileDescriptor
deriving DecidableEq, Repr

/-- FileStats, mirroring src/filestats.ts. -/
structure FileStats where
  size : Int
  isDirectory : Bool
  createdAt : Nat
  modifiedAt : Nat
deriving DecidableEq, Repr

/-- The driver's `Map<string, Uint8Array>` content store, as an association list. -/
abbrev ContentMap := List (JStr × List Nat)

/-- `Map.get`, `undefined` becoming `none`. -/
def mapGet (m : ContentMap) (k : JStr) : Option (List Nat) :=
  (m.find? (fun e => e.1 == k)).map (fun e => e.2)

/-- `Map.set`: replace the value at an existing key, else append the binding. -/
def mapSet (m : ContentMap) (k : JStr) (v : List Nat) : ContentMap :=
  if m.any (fun e => e.1 == k) then m.map (fun e => if e.1 == k then (k, v) else e)
  else m ++ [(k, v)]

/-- `Map.delete`. -/
def mapDelete (m : ContentMap) (k : JStr) : ContentMap :=
  m.filter (fun e => !(e.1 == k))

/-- State of one `InMemoryVFSDriver`: the descriptor journal plus the content map. -/
structure DriverState where
  descriptors : List FileDescriptor
  content : ContentMap
deriving DecidableEq, Repr

instance : Inhabited DriverState := ⟨⟨[], []⟩⟩

/-- `this.fs.journal.descriptors.find(d => d.path === path)`. -/
def findDescriptor (s : DriverState) (path : JStr) : Option FileDescriptor :=
  s.descriptors.find? (fun d => d.path == path)

/-- Update the first list element satisfying the predicate (in-place mutation
    of the object returned by `find`/`findIndex` in the source). -/
def updFirst (p : α → Bool) (f : α → α) : List α → List α
  | [] => []
  | x :: xs => if p x then f x :: xs else x :: updFirst p f xs

/-- InMemoryVFSDriver.createFile. -/
def memCreateFile (s : DriverState) (now : Nat) (path : JStr) : Option VFile × DriverState :=
  match findDescriptor s path with
  | some _ => (none, s)
  | none =>
    let d : FileDescriptor :=
      { path := path, parent := -1, name := jsName path, size := 0,
        isDirectory := false, createdAt := now, modifiedAt := now }
    (some ⟨d⟩, { descriptors := s.descriptors ++ [d], content := mapSet s.content path [] })

/-- InMemoryVFSDriver.removeFile. -/
def memRemoveFile (s : DriverState) (path : JStr) : Option VFile × DriverState :=
  match findDescriptor s path with
  | none => (none, s)
  | some d =>
    if d.isDirectory then (none, s)
    else (some ⟨d⟩,
      { descriptors := s.descriptors.eraseP (fun d2 => d2.path == path),
        content := mapDelete s.content path })

/-- InMemoryVFSDriver.createDirectory. -/
def memCreateDirectory (s : DriverState) (now : Nat) (path : JStr) : Bool × DriverState :=
  match findDescriptor s path with
  | some _ => (false, s)
  | none =>
    let d : FileDescriptor :=
      { path := path, parent := -1, name := jsName path, size := 0,
        isDirectory := true, createdAt := now, modifiedAt := now }
    (true, { s with descriptors := s.descriptors ++ [d] })

/-- InMemoryVFSDriver.removeDirectory. -/
def memRemoveDirectory (s : DriverState) (path : JStr) : Bool × DriverState :=
  match findDescriptor s path with
  | none => (false, s)
  | some d =>
    if !d.isDirectory then (false, s)
    else if s.descriptors.any (fun d2 => d2.path != path && (path ++ js "/").isPrefixOf d2.path)
    then (false, s)
    else (true, { s with descriptors := s.descriptors.eraseP (fun d2 => d2.path == path) })

/-- InMemoryVFSDriver.listDirectory (identical in both driver revisions). -/
def memListDirectory (s : DriverState) (path : JStr) : List VFile :=
  let cleanPath := if path == js "/" then [] else path
  (s.descriptors.filter
    (fun d => parentPath d.path == cleanPath && d.path != cleanPath)).map (fun d => ⟨d⟩)

/-- InMemoryVFSDriver.readFile. -/
def memReadFile (s : DriverState) (path : JStr) : Option (List Nat) :=
  match findDescriptor s path with
  | none => none
  | some d => if d.isDirectory then none else mapGet s.content path

/-- InMemoryVFSDriver.writeFile. -/
def memWriteFile (s : DriverState) (now : Nat) (path : JStr) (data : List Nat) :
    Bool × DriverState :=
  match findDescriptor s path with
  | none => (false, s)
  | some d =>
    if d.isDirectory then (false, s)
    else (true,
      { descriptors := updFirst (fun d2 => d2.path == path)
          (fun d2 => { d2 with size := (data.length : Int), modifiedAt := now }) s.descriptors,
        content := mapSet s.content path data })

/-- InMemoryVFSDriver.appendFile. -/
def memAppendFile (s : DriverState) (now : Nat) (path : JStr) (data : List Nat) :
    Bool × DriverState :=
  match findDescriptor s path, mapGet s.content path with
  | some d, some cur =>
    if d.isDirectory then (false, s)
    else
      let newData := cur ++ data
      (true,
        { descriptors := updFirst (fun d2 => d2.path == path)
            (fun d2 => { d2 with size := (newData.length : Int), modifiedAt := now })
            s.descriptors,
          content := mapSet s.content path newData })
  | _, _ => (false, s)

/-- InMemoryVFSDriver.exists. -/
def memExists (s : DriverState) (path : JStr) : Bool := (findDescriptor s path).isSome

/-- InMemoryVFSDriver.stat. -/
def memStat (s : DriverState) (path : JStr) : Option FileStats :=
  (findDescriptor s path).map (fun d =>
    { size := d.size, isDirectory := d.isDirectory,
      createdAt := d.createdAt, modifiedAt := d.modifiedAt })

/-- InMemoryVFSDriver.rename, first revision
    (src/drivers/inmemory-corevfs-driver.ts lines 146-162): renames the
    single descriptor found at `oldPath` and moves its content entry. -/
def memRenameV1 (s : DriverState) (now : Nat) (oldPath newPath : JStr) : Bool × DriverState :=
  match findDescriptor s oldPath with
  | none => (false, s)
  | some d =>
    if (findDescriptor s newPath).isSome then (false, s)
    else
      let descriptors := updFirst (fun d2 => d2.path == oldPath)
        (fun d2 => { d2 with path := newPath, name := jsName newPath, modifiedAt := now })
        s.descriptors
      let content :=
        if !d.isDirectory then
          match mapGet s.content oldPath with
          | some data => mapDelete (mapSet s.content newPath data) oldPath
          | none => s.content
        else s.content
      (true, { descriptors := descriptors, content := content })

/-- Membership in the set of descriptors moved by the revised rename:
    `d.path === oldPath || d.path.startsWith(oldPath + '/')`. -/
def inMoveSet (oldPath : JStr) (d : FileDescriptor) : Bool :=
  d.path == oldPath || (oldPath ++ js "/").isPrefixOf d.path

/-- InMemoryVFSDriver.rename, second revision (src/index.ts lines 154-181):
    re-roots every descriptor whose path is `oldPath` or starts with
    `oldPath + '/'`, moving file content along. -/
def memRenameV2 (s : DriverState) (now : Nat) (oldPath newPath : JStr) : Bool × DriverState :=
  match findDescriptor s oldPath with
  | none => (false, s)
  | some _ =>
    if (findDescriptor s newPath).isSome then (false, s)
    else
      let items := s.descriptors.filter (inMoveSet oldPath)
      let descriptors := s.descriptors.map (fun d =>
        if inMoveSet oldPath d then
          let destPath := newPath ++ d.path.drop oldPath.length
          { d with path := destPath, name := jsName destPath, modifiedAt := now }
        else d)
      let content := items.foldl (fun c d =>
        let destPath := newPath ++ d.path.drop oldPath.length
        if !d.isDirectory then
          match mapGet c d.path with
          | some data => mapDelete (mapSet c destPath data) d.path
          | none => c
        else c) s.content
      (true, { descriptors := descriptors, content := content })

/-- InMemoryVFSDriver.copy, first revision (files only). -/
def memCopyV1 (s : DriverState) (now : Nat) (srcPath destPath : JStr) : Bool × DriverState :=
  match findDescriptor s srcPath with
  | none => (false, s)
  | some d =>
    if d.isDirectory then (false, s)
    else
      match mapGet s.content srcPath with
      | none => (false, s)
      | some data =>
        let (_, s1) := memCreateFile s now destPath
        memWriteFile s1 now destPath data

/-- Sequential loop over the children of the revised driver copy;
    per-child results are discarded. -/
def memCopyChildrenV2 (rec : DriverState → JStr → JStr → Bool × DriverState)
    (destPath : JStr) : List FileDescriptor → DriverState → DriverState
  | [], s => s
  | d :: rest, s =>
    let (_, s1) := rec s d.path (destPath ++ js "/" ++ d.name)
    memCopyChildrenV2 rec destPath rest s1

/-- InMemoryVFSDriver.copy, second revision (src/index.ts lines 183-206),
    with explicit recursion fuel. -/
def memCopyV2 (fuel : Nat) (now : Nat) (s : DriverState) (srcPath destPath : JStr) :
    Bool × DriverState :=
  match fuel with
  | 0 => (false, s)
  | fuel + 1 =>
    match findDescriptor s srcPath with
    | none => (false, s)
    | some d =>
      if d.isDirectory then
        let (_, s1) := memCreateDirectory s now destPath
        let children := s1.descriptors.filter (fun d2 => parentPath d2.path == srcPath)
        (true, memCopyChildrenV2 (fun s2 a b => memCopyV2 fuel now s2 a b) destPath children s1)
      else
        match mapGet s.content srcPath with
        | none => (false, s)
        | some data =>
          let (_, s1) := memCreateFile s now destPath
          memWriteFile s1 now destPath data

/-- `Uint8Array.slice(0, e)` where `e` may be a negative JS index. -/
def jsSliceTo (data : List Nat) (e : Int) : List Nat :=
  data.take (if e < 0 then ((data.length : Int) + e).toNat else e.toNat)

/-- InMemoryVFSDriver.truncate (identical in both revisions). -/
def memTruncate (s : DriverState) (now : Nat) (path : JStr) (len : Int) : Bool × DriverState :=
  match findDescriptor s path, mapGet s.content path with
  | some d, some data =>
    if d.isDirectory then (false, s)
    else if len < (data.length : Int) then
      let newData := jsSliceTo data len
      (true,
        { descriptors := updFirst (fun d2 => d2.path == path)
            (fun d2 => { d2 with size := len, modifiedAt := now }) s.descriptors,
          content := mapSet s.content path newData })
    else (true, s)
  | _, _ => (false, s)

/-- The CoreVFSDriver interface (src/drivers/corevfs-driver.ts).  The extra
    `Nat` arguments stand for `Date.now()` and, on `copy`, recursion fuel. -/
structure DriverOps (σ : Type) where
  createFile : σ → Nat → JStr → Option VFile × σ
  removeFile : σ → JStr → Option VFile × σ
  createDirectory : σ → Nat → JStr → Bool × σ
  removeDirectory : σ → JStr → Bool × σ
  listDirectory : σ → JStr → List VFile
  readFile : σ → JStr → Option (List Nat)
  writeFile : σ → Nat → JStr → List Nat → Bool × σ
  appendFile : σ → Nat → JStr → List Nat → Bool × σ
  existsQ : σ → JStr → Bool
  stat : σ → JStr → Option FileStats
  rename : σ → Nat → JStr → JStr → Bool × σ
  copy : σ → Nat → Nat → JStr → JStr → Bool × σ
  truncate : σ → Nat → JStr → Int → Bool × σ

/-- The first driver revision, from src/drivers/inmemory-corevfs-driver.ts. -/
def inMemOpsV1 : DriverOps DriverState :=
  { createFile := memCreateFile
    removeFile := memRemoveFile
    createDirectory := memCreateDirectory
    removeDirectory := memRemoveDirectory
    listDirectory := memListDirectory
    readFile := memReadFile
    writeFile := memWriteFile
    appendFile := memAppendFile
    existsQ := memExists
    stat := memStat
    rename := memRenameV1
    copy := fun s _fuel now a b => memCopyV1 s now a b
    truncate := memTruncate }

/-- The second driver revision, from src/index.ts. -/
def inMemOpsV2 : DriverOps DriverState :=
  { inMemOpsV1 with
    rename := memRenameV2
    copy := fun s fuel now a b => memCopyV2 fuel now s a b }

/-- MountPoint, mirroring src/mount-point.ts; the driver reference is an index. -/
structure MountPoint where
  path : JStr
  driverId : Nat
deriving DecidableEq, Repr

/-- ResolvedPath, mirroring src/resolved-path.ts. -/
structure ResolvedPath where
  driverId : Nat
  relativePath : JStr
  mountPath : JStr
deriving DecidableEq, Repr

/-- The facade state: the mount table. -/
structure CoreVFS where
  mounts : List MountPoint
deriving DecidableEq, Repr

/-- Path normalisation at the top of CoreVFS.mount: prefix a missing
    leading slash; strip one trailing slash unless the path is `/`. -/
def cleanMountPath (path : JStr) : JStr :=
  let p := if (js "/").isPrefixOf path then path else js "/" ++ path
  if p.length > 1 && (js "/").isSuffixOf p then p.dropLast else p

/-- Insert a mount before the first strictly shorter one (descending insertion). -/
def insMount (x : MountPoint) : List MountPoint → List MountPoint
  | [] => [x]
  | y :: ys => if y.path.length < x.path.length then x :: y :: ys else y :: insMount x ys

/-- `this.mounts.sort((a, b) => b.path.length - a.path.length)`:
    a stable sort by descending path length (Array.prototype.sort is
    stable per ES2019, and a stable sort by a fixed key has a unique
    result), realised as a stable insertion sort. -/
def jsSortMounts (l : List MountPoint) : List MountPoint :=
  l.foldl (fun acc x => insMount x acc) []

/-- The match test inside CoreVFS.resolve. -/
def mountMatches (mp : MountPoint) (path : JStr) : Bool :=
  mp.path == path || mp.path == js "/" || (mp.path ++ js "/").isPrefixOf path

/-- Relative-path computation of CoreVFS.resolve for a matched mount. -/
def mkResolved (mp : MountPoint) (path : JStr) : ResolvedPath :=
  let rel0 := path.drop mp.path.length
  let rel1 := if rel0 = [] then js "/" else rel0
  let rel2 := if rel1.length > 0 && !((js "/").isPrefixOf rel1) then js "/" ++ rel1 else rel1
  { driverId := mp.driverId, relativePath := rel2, mountPath := mp.path }

/-- CoreVFS.resolve; `none` models the thrown "No driver mounted" error. -/
def resolveVFS (vfs : CoreVFS) (path : JStr) : Option ResolvedPath :=
  (vfs.mounts.find? (fun mp => mountMatches mp path)).map (fun mp => mkResolved mp path)

/-- The world holds every driver's state, indexed by driverId. -/
abbrev World (σ : Type) := List σ

/-- Exceptions thrown by the facade. -/
inductive VErr where
  | notMounted (path : JStr)
  | crossDevice
deriving DecidableEq, Repr

def getDrv [Inhabited σ] (w : World σ) (i : Nat) : σ := w.getD i default

def setDrv (w : World σ) (i : Nat) (s : σ) : World σ := w.set i s

/-- CoreVFS.fixDescriptorPath. -/
def fixDescriptorPath (f : VFile) (mountPath : JStr) : VFile :=
  if mountPath == js "/" then f
  else
    let suffix := if f.descriptor.path == js "/" then [] else f.descriptor.path
    ⟨{ f.descriptor with path := mountPath ++ suffix }⟩

variable {σ : Type}

/-- CoreVFS.createFile. -/
def vfsCreateFile [Inhabited σ] (D : DriverOps σ) (vfs : CoreVFS) (w : World σ) (now : Nat)
    (path : JStr) : Except VErr (Option VFile) × World σ :=
  match resolveVFS vfs path with
  | none => (.error (.notMounted path), w)
  | some r =>
    let (file, s1) := D.createFile (getDrv w r.driverId) now r.relativePath
    (.ok (file.map (fun f => fixDescriptorPath f r.mountPath)), setDrv w r.driverId s1)

/-- CoreVFS.removeFile. -/
def vfsRemoveFile [Inhabited σ] (D : DriverOps σ) (vfs : CoreVFS) (w : World σ)
    (path : JStr) : Except VErr (Option VFile) × World σ :=
  match resolveVFS vfs path with
  | none => (.error (.notMounted path), w)
  | some r =>
    let (file, s1) := D.removeFile (getDrv w r.driverId) r.relativePath
    (.ok (file.map (fun f => fixDescriptorPath f r.mountPath)), setDrv w r.driverId s1)

/-- CoreVFS.createDirectory. -/
def vfsCreateDirectory [Inhabited σ] (D : DriverOps σ) (vfs : CoreVFS) (w : World σ) (now : Nat)
    (path : JStr) : Except VErr Bool × World σ :=
  match resolveVFS vfs path with
  | none => (.error (.notMounted path), w)
  | some r =>
    let (b, s1) := D.createDirectory (getDrv w r.driverId) now r.relativePath
    (.ok b, setDrv w r.driverId s1)

/-- CoreVFS.removeDirectory. -/
def vfsRemoveDirectory [Inhabited σ] (D : DriverOps σ) (vfs : CoreVFS) (w : World σ)
    (path : JStr) : Except VErr Bool × World σ :=
  match resolveVFS vfs path with
  | none => (.error (.notMounted path), w)
  | some r =>
    let (b, s1) := D.removeDirectory (getDrv w r.driverId) r.relativePath
    (.ok b, setDrv w r.driverId s1)

/-- CoreVFS.listDirectory: delegate, rewrite descriptor paths, and drop
    every entry whose name is the synthetic mount root `/`. -/
def vfsListDirectory [Inhabited σ] (D : DriverOps σ) (vfs : CoreVFS) (w : World σ)
    (path : JStr) : Except VErr (List VFile) :=
  match resolveVFS vfs path with
  | none => .error (.notMounted path)
  | some r =>
    .ok (((D.listDirectory (getDrv w r.driverId) r.relativePath).map
      (fun f => fixDescriptorPath f r.mountPath)).filter
        (fun f => f.descriptor.name != js "/"))

/-- CoreVFS.readFile. -/
def vfsReadFile [Inhabited σ] (D : DriverOps σ) (vfs : CoreVFS) (w : World σ)
    (path : JStr) : Except VErr (Option (List Nat)) :=
  match resolveVFS vfs path with
  | none => .error (.notMounted path)
  | some r => .ok (D.readFile (getDrv w r.driverId) r.relativePath)

/-- CoreVFS.writeFile. -/
def vfsWriteFile [Inhabited σ] (D : DriverOps σ) (vfs : CoreVFS) (w : World σ) (now : Nat)
    (path : JStr) (data : List Nat) : Except VErr Bool × World σ :=
  match resolveVFS vfs path with
  | none => (.error (.notMounted path), w)
  | some r =>
    let (b, s1) := D.writeFile (getDrv w r.driverId) now r.relativePath data
    (.ok b, setDrv w r.driverId s1)

/-- CoreVFS.appendFile. -/
def vfsAppendFile [Inhabited σ] (D : DriverOps σ) (vfs : CoreVFS) (w : World σ) (now : Nat)
    (path : JStr) (data : List Nat) : Except VErr Bool × World σ :=
  match resolveVFS vfs path with
  | none => (.error (.notMounted path), w)
  | some r =>
    let (b, s1) := D.appendFile (getDrv w r.driverId) now r.relativePath data
    (.ok b, setDrv w r.driverId s1)

/-- CoreVFS.exists: a resolution failure is caught and reported as `false`. -/
def vfsExists [Inhabited σ] (D : DriverOps σ) (vfs : CoreVFS) (w : World σ)
    (path : JStr) : Bool :=
  match resolveVFS vfs path with
  | none => false
  | some r => D.existsQ (getDrv w r.driverId) r.relativePath

/-- CoreVFS.stat. -/
def vfsStat [Inhabited σ] (D : DriverOps σ) (vfs : CoreVFS) (w : World σ)
    (path : JStr) : Except VErr (Option FileStats) :=
  match resolveVFS vfs path with
  | none => .error (.notMounted path)
  | some r => .ok (D.stat (getDrv w r.driverId) r.relativePath)

/-- CoreVFS.truncate. -/
def vfsTruncate [Inhabited σ] (D : DriverOps σ) (vfs : CoreVFS) (w : World σ) (now : Nat)
    (path : JStr) (len : Int) : Except VErr Bool × World σ :=
  match resolveVFS vfs path with
  | none => (.error (.notMounted path), w)
  | some r =>
    let (b, s1) := D.truncate (getDrv w r.driverId) now r.relativePath len
    (.ok b, setDrv w r.driverId s1)

/-- CoreVFS.rename: resolve both paths, throw EXDEV across two drivers,
    else delegate to the single owning driver with both relative paths. -/
def vfsRename [Inhabited σ] (D : DriverOps σ) (vfs : CoreVFS) (w : World σ) (now : Nat)
    (oldPath newPath : JStr) : Except VErr Bool × World σ :=
  match resolveVFS vfs oldPath with
  | none => (.error (.notMounted oldPath), w)
  | some src =>
    match resolveVFS vfs newPath with
    | none => (.error (.notMounted newPath), w)
    | some dst =>
      if src.driverId != dst.driverId then (.error .crossDevice, w)
      else
        let (r, s1) := D.rename (getDrv w src.driverId) now src.relativePath dst.relativePath
        (.ok r, setDrv w src.driverId s1)

/-- `parentPath + '/' + childName` followed by `.replace('//', '/')`
    as performed on both joined paths inside CoreVFS.copy. -/
def joinChild (p childName : JStr) : JStr :=
  replaceOnce (js "//") (js "/") (p ++ js "/" ++ childName)

/-- The sequential `for (const child of children)` loop of CoreVFS.copy;
    a thrown error aborts the loop, per-child results are discarded. -/
def vfsCopyChildren (rec : JStr → JStr → World σ → Except VErr Bool × World σ)
    (srcPath destPath : JStr) : List VFile → World σ → Except VErr Unit × World σ
  | [], w => (.ok (), w)
  | child :: rest, w =>
    match rec (joinChild srcPath child.descriptor.name)
        (joinChild destPath child.descriptor.name) w with
    | (.error e, w1) => (.error e, w1)
    | (.ok _, w1) => vfsCopyChildren rec srcPath destPath rest w1

/-- CoreVFS.copy with explicit recursion fuel (`dFuel` is handed to the
    driver-level copy of the same-driver branch). -/
def vfsCopy [Inhabited σ] (D : DriverOps σ) (vfs : CoreVFS) (dFuel : Nat) :
    Nat → Nat → JStr → JStr → World σ → Except VErr Bool × World σ
  | 0, _, _, _, w => (.ok false, w)
  | fuel + 1, now, srcPath, destPath, w =>
    match resolveVFS vfs srcPath with
    | none => (.error (.notMounted srcPath), w)
    | some src =>
      match resolveVFS vfs destPath with
      | none => (.error (.notMounted destPath), w)
      | some dst =>
        if src.driverId == dst.driverId then
          let (r, s1) := D.copy (getDrv w src.driverId) dFuel now
            src.relativePath dst.relativePath
          (.ok r, setDrv w src.driverId s1)
        else
          match D.stat (getDrv w src.driverId) src.relativePath with
          | none => (.ok false, w)
          | some stats =>
            if stats.isDirectory then
              match vfsCreateDirectory D vfs w now destPath with
              | (.error e, w1) => (.error e, w1)
              | (.ok _, w1) =>
                match vfsListDirectory D vfs w1 srcPath with
                | .error e => (.error e, w1)
                | .ok children =>
                  match vfsCopyChildren (fun a b w2 => vfsCopy D vfs dFuel fuel now a b w2)
                      srcPath destPath children w1 with
                  | (.error e, w2) => (.error e, w2)
                  | (.ok _, w2) => (.ok true, w2)
            else
              match D.readFile (getDrv w src.driverId) src.relativePath with
              | none => (.ok false, w)
              | some data =>
                match vfsCreateFile D vfs w now destPath with
                | (.error e, w1) => (.error e, w1)
                | (.ok _, w1) =>
                  let (r, s1) := D.writeFile (getDrv w1 dst.driverId) now
                    dst.relativePath data
                  (.ok r, setDrv w1 dst.driverId s1)

/-- CoreVFS.mount: normalise the path, best-effort create the driver root
    and the mount-point directory (failures swallowed), then append the
    mount entry and re-sort by descending path length. -/
def vfsMount [Inhabited σ] (D : DriverOps σ) (vfs : CoreVFS) (w : World σ) (now : Nat)
    (driverId : Nat) (path : JStr) : CoreVFS × World σ :=
  let cleanPath := cleanMountPath path
  let (_, s1) := D.createDirectory (getDrv w driverId) now (js "/")
  let w1 := setDrv w driverId s1
  let w2 :=
    if cleanPath != js "/" then
      if !(vfsExists D vfs w1 cleanPath) then (vfsCreateDirectory D vfs w1 now cleanPath).2
      else w1
    else w1
  ({ mounts := jsSortMounts (vfs.mounts ++ [{ path := cleanPath, driverId := driverId }]) }, w2)

/-- Perform a sequence of mount calls (driverId, requested path). -/
def applyMounts [Inhabited σ] (D : DriverOps σ) (now : Nat) (reqs : List (Nat × JStr))
    (vw : CoreVFS × World σ) : CoreVFS × World σ :=
  reqs.foldl (fun vw r => vfsMount D vw.1 vw.2 now r.1 r.2) vw

/-! ## Mount-table ordering lemmas -/

/-- The mount table's sort invariant: path lengths are non-increasing. -/
def SortedM (l : List MountPoint) : Prop :=
  l.Pairwise (fun a b => b.path.length ≤ a.path.length)

theorem insMount_perm (x : MountPoint) (l : List MountPoint) :
    List.Perm (insMount x l) (x :: l) := by
  induction l with
  | nil => simp [insMount]
  | cons y ys ih =>
    simp only [insMount]
    by_cases h : y.path.length < x.path.length
    · simp [h]
    · simp only [h, if_false]
      exact (ih.cons y).trans (List.Perm.swap x y ys)

theorem mem_insMount {x z : MountPoint} {l : List MountPoint} :
    z ∈ insMount x l ↔ z = x ∨ z ∈ l := by
  have := (insMount_perm x l).mem_iff (a := z)
  simpa using this

theorem insMount_sorted {x : MountPoint} {l : List MountPoint} (h : SortedM l) :
    SortedM (insMount x l) := by
  induction l with
  | nil => simp [insMount, SortedM]
  | cons y ys ih =>
    rcases List.pairwise_cons.mp h with ⟨hy, hys⟩
    by_cases hlt : y.path.length < x.path.length
    · simp only [insMount, hlt, if_true]
      refine List.pairwise_cons.mpr ⟨?_, h⟩
      intro z hz
      rcases List.mem_cons.mp hz with rfl | hz
      · exact Nat.le_of_lt hlt
      · exact Nat.le_trans (hy z hz) (Nat.le_of_lt hlt)
    · simp only [insMount, hlt, if_false]
      refine List.pairwise_cons.mpr ⟨?_, ih hys⟩
      intro z hz
      rcases mem_insMount.mp hz with rfl | hz
      · exact Nat.le_of_not_lt hlt
      · exact hy z hz

theorem jsSortMounts_aux_sorted (l : List MountPoint) :
    ∀ acc, SortedM acc → SortedM (l.foldl (fun acc x => insMount x acc) acc) := by
  induction l with
  | nil => intro acc h; exact h
  | cons x xs ih => intro acc h; exact ih _ (insMount_sorted h)

theorem jsSortMounts_sorted (l : List MountPoint) : SortedM (jsSortMounts l) :=
  jsSortMounts_aux_sorted l [] (by simp [SortedM])

theorem jsSortMounts_aux_perm (l : List MountPoint) :
    ∀ acc, List.Perm (l.foldl (fun acc x => insMount x acc) acc) (acc ++ l) := by
  induction l with
  | nil => intro acc; simp
  | cons x xs ih =>
    intro acc
    have h1 : List.Perm (xs.foldl (fun acc x => insMount x acc) (insMount x acc))
        (insMount x acc ++ xs) := ih _
    have h2 : List.Perm (insMount x acc ++ xs) ((x :: acc) ++ xs) :=
      (insMount_perm x acc).append_right xs
    have h3 : List.Perm ((x :: acc) ++ xs) (acc ++ x :: xs) := by
      simpa using (@List.perm_middle _ x acc xs).symm
    exact (h1.trans h2).trans h3

theorem jsSortMounts_perm (l : List MountPoint) : List.Perm (jsSortMounts l) l := by
  simpa using jsSortMounts_aux_perm l []

theorem jsSortMounts_append_one (l : List MountPoint) (x : MountPoint) :
    jsSortMounts (l ++ [x]) = insMount x (jsSortMounts l) := by
  simp [jsSortMounts, List.foldl_append]

/-- A mount step replaces the table by the sorted extension of the old one. -/
theorem vfsMount_mounts [Inhabited σ] (D : DriverOps σ) (vfs : CoreVFS) (w : World σ)
    (now driverId : Nat) (path : JStr) :
    (vfsMount D vfs w now driverId path).1.mounts =
      insMount { path := cleanMountPath path, driverId := driverId }
        (jsSortMounts vfs.mounts) := by
  simp [vfsMount, jsSortMounts_append_one]

theorem applyMounts_cons [Inhabited σ] (D : DriverOps σ) (now : Nat) (r : Nat × JStr)
    (reqs : List (Nat × JStr)) (vw : CoreVFS × World σ) :
    applyMounts D now (r :: reqs) vw =
      applyMounts D now reqs (vfsMount D vw.1 vw.2 now r.1 r.2) := by
  simp [applyMounts]

theorem applyMounts_sorted [Inhabited σ] (D : DriverOps σ) (now : Nat)
    (reqs : List (Nat × JStr)) :
    ∀ vw : CoreVFS × World σ, SortedM vw.1.mounts →
      SortedM (applyMounts D now reqs vw).1.mounts := by
  induction reqs with
  | nil => intro vw h; exact h
  | cons r rs ih =>
    intro vw h
    rw [applyMounts_cons]
    apply ih
    rw [vfsMount_mounts]
    exact insMount_sorted (jsSortMounts_sorted _)

theorem applyMounts_perm [Inhabited σ] (D : DriverOps σ) (now : Nat)
    (reqs : List (Nat × JStr)) :
    ∀ vw : CoreVFS × World σ,
      List.Perm (applyMounts D now reqs vw).1.mounts
        (vw.1.mounts ++ reqs.map (fun r => { path := cleanMountPath r.2, driverId := r.1 })) := by
  induction reqs with
  | nil => intro vw; simp [applyMounts]
  | cons r rs ih =>
    intro vw
    rw [applyMounts_cons]
    refine (ih _).trans ?_
    rw [vfsMount_mounts]
    have h2 : List.Perm
        (insMount { path := cleanMountPath r.2, driverId := r.1 } (jsSortMounts vw.1.mounts))
        ({ path := cleanMountPath r.2, driverId := r.1 } :: vw.1.mounts) :=
      (insMount_perm _ _).trans ((jsSortMounts_perm _).cons _)
    refine (h2.append_right _).trans ?_
    simpa using (@List.perm_middle _ { path := cleanMountPath r.2, driverId := r.1 }
      vw.1.mounts (rs.map (fun r => { path := cleanMountPath r.2, driverId := r.1 }))).symm

/-- On a length-sorted table, `find` returns a matching entry of maximal path length. -/
theorem find_sorted_longest {l : List MountPoint} (hs : SortedM l) {p : JStr} {mp : MountPoint}
    (h : l.find? (fun m => mountMatches m p) = some mp) :
    mountMatches mp p = true ∧ mp ∈ l ∧
      ∀ m ∈ l, mountMatches m p = true → m.path.length ≤ mp.path.length := by
  induction l with
  | nil => simp at h
  | cons y ys ih =>
    rcases List.pairwise_cons.mp hs with ⟨hy, hys⟩
    by_cases hmy : mountMatches y p = true
    · rw [@List.find?_cons_of_pos _ (fun m => mountMatches m p) y ys hmy] at h
      cases h
      refine ⟨hmy, List.mem_cons_self _ _, ?_⟩
      intro m hm _
      rcases List.mem_cons.mp hm with rfl | hm
      · exact Nat.le_refl _
      · exact hy m hm
    · rw [@List.find?_cons_of_neg _ (fun m => mountMatches m p) y ys (by simpa using hmy)] at h
      rcases ih hys h with ⟨h1, h2, h3⟩
      refine ⟨h1, List.mem_cons_of_mem _ h2, ?_⟩
      intro m hm hmm
      rcases List.mem_cons.mp hm with rfl | hm
      · exact absurd hmm hmy
      · exact h3 m hm hmm

/-- C1: for every mount table built by mount() and every path `p`,
    `resolve(p)` selects a matching entry (`mountPath` equal to `p`, or `/`,
    or a strict prefix of `p` followed by `/`) of maximal `mountPath` length,
    and it fails with NotMounted exactly when no entry matches. -/
theorem resolve_selects_longest (reqs : List (Nat × JStr)) (w0 : World DriverState)
    (now : Nat) (p : JStr) :
    (∀ r, resolveVFS (applyMounts inMemOpsV1 now reqs (⟨[]⟩, w0)).1 p = some r →
      ∃ mp ∈ (applyMounts inMemOpsV1 now reqs (⟨[]⟩, w0)).1.mounts,
        mountMatches mp p = true ∧ r = mkResolved mp p ∧
        ∀ mp2 ∈ (applyMounts inMemOpsV1 now reqs (⟨[]⟩, w0)).1.mounts,
          mountMatches mp2 p = true → mp2.path.length ≤ mp.path.length) ∧
    (resolveVFS (applyMounts inMemOpsV1 now reqs (⟨[]⟩, w0)).1 p = none ↔
      ∀ mp ∈ (applyMounts inMemOpsV1 now reqs (⟨[]⟩, w0)).1.mounts,
        mountMatches mp p = false) := by
  have hsorted : SortedM (applyMounts inMemOpsV1 now reqs (⟨[]⟩, w0)).1.mounts :=
    applyMounts_sorted _ _ _ _ (by simp [SortedM])
  constructor
  · intro r hr
    rcases Option.map_eq_some'.mp hr with ⟨mp, hfind, rfl⟩
    rcases find_sorted_longest hsorted hfind with ⟨h1, h2, h3⟩
    exact ⟨mp, h2, h1, rfl, h3⟩
  · rw [resolveVFS, Option.map_eq_none', List.find?_eq_none]
    constructor
    · intro h mp hmp
      exact Bool.not_eq_true _ ▸ (by simpa using h mp hmp)
    · intro h mp hmp
      simp [h mp hmp]

/-- C1 witness: with mounts at `/`, `/a` and `/a/b`, the path `/a/b/c`
    resolves to the deepest mount `/a/b`. -/
theorem resolve_selects_longest_witness :
    ∃ mp ∈ (applyMounts inMemOpsV1 0 [(0, js "/"), (1, js "/a"), (2, js "/a/b")]
        (⟨[]⟩, ([] : World DriverState))).1.mounts,
      mountMatches mp (js "/a/b/c") = true ∧
      mkResolved { path := js "/a/b", driverId := 2 } (js "/a/b/c") = mkResolved mp (js "/a/b/c") ∧
      ∀ mp2 ∈ (applyMounts inMemOpsV1 0 [(0, js "/"), (1, js "/a"), (2, js "/a/b")]
          (⟨[]⟩, ([] : World DriverState))).1.mounts,
        mountMatches mp2 (js "/a/b/c") = true → mp2.path.length ≤ mp.path.length :=
  (resolve_selects_longest [(0, js "/"), (1, js "/a"), (2, js "/a/b")] [] 0 (js "/a/b/c")).1
    (mkResolved { path := js "/a/b", driverId := 2 } (js "/a/b/c")) (by decide)

/-- C4 counterexample: mounting `/a` twice (two different drivers) leaves two
    entries with the same mountPath in the table, so uniqueness fails. -/
theorem mount_table_duplicate_counterexample :
    ¬ (((applyMounts inMemOpsV1 0 [(0, js "/a"), (1, js "/a")]
        (⟨[]⟩, ([] : World DriverState))).1.mounts).map MountPoint.path).Nodup := by
  decide

/-- C4 (amended): after every sequence of mount() calls the table is sorted by
    mountPath length descending; the mountPaths are pairwise distinct provided
    the normalized requested mount paths were pairwise distinct (mount() never
    deduplicates, so mounting the same normalized path twice yields duplicates). -/
theorem mount_table_sorted_and_unique (reqs : List (Nat × JStr)) (w0 : World DriverState)
    (now : Nat) :
    SortedM (applyMounts inMemOpsV1 now reqs (⟨[]⟩, w0)).1.mounts ∧
    ((reqs.map (fun r => cleanMountPath r.2)).Nodup →
      (((applyMounts inMemOpsV1 now reqs (⟨[]⟩, w0)).1.mounts).map MountPoint.path).Nodup) := by
  refine ⟨applyMounts_sorted _ _ _ _ (by simp [SortedM]), ?_⟩
  intro hnd
  have hperm := applyMounts_perm inMemOpsV1 now reqs (⟨[]⟩, w0)
  have hmap := hperm.map MountPoint.path
  rw [List.Perm.nodup_iff hmap]
  simpa [Function.comp] using hnd

/-- C4 witness: two distinct normalized mount paths produce a table with
    pairwise distinct mountPaths. -/
theorem mount_table_sorted_and_unique_witness :
    (((applyMounts inMemOpsV1 0 [(0, js "/a"), (1, js "/b")]
        (⟨[]⟩, ([] : World DriverState))).1.mounts).map MountPoint.path).Nodup :=
  (mount_table_sorted_and_unique [(0, js "/a"), (1, js "/b")] [] 0).2 (by decide)

/-! ## Mount order independence -/

theorem insMount_eq_append {x : MountPoint} {l : List MountPoint}
    (h : ∀ y ∈ l, ¬ y.path.length < x.path.length) : insMount x l = l ++ [x] := by
  induction l with
  | nil => rfl
  | cons y ys ih =>
    have hy := h y (List.mem_cons_self _ _)
    simp only [insMount, hy, if_false, List.cons_append, List.cons.injEq, true_and]
    exact ih (fun z hz => h z (List.mem_cons_of_mem _ hz))

theorem jsSortMounts_of_sorted {l : List MountPoint} (h : SortedM l) :
    jsSortMounts l = l := by
  induction l using List.reverseRecOn with
  | nil => rfl
  | append_singleton l x ih =>
    rcases List.pairwise_append.mp h with ⟨h1, _, h3⟩
    rw [jsSortMounts_append_one, ih h1]
    exact insMount_eq_append (fun y hy =>
      Nat.not_lt.mpr (h3 y hy x (List.mem_singleton_self _)))

theorem insMount_comm {a b : MountPoint} (h : b.path.length < a.path.length) :
    ∀ S, insMount b (insMount a S) = insMount a (insMount b S) := by
  intro S
  induction S with
  | nil =>
    simp only [insMount, h, if_true, Nat.not_lt_of_lt h, if_false]
  | cons y ys ih =>
    by_cases hy : y.path.length < a.path.length
    · simp only [insMount, hy, if_true, Nat.not_lt_of_lt h, if_false]
      by_cases hyb : y.path.length < b.path.length
      · simp [insMount, hyb, Nat.lt_trans hyb h, h]
      · simp [insMount, hyb, hy]
    · have hyb : ¬ y.path.length < b.path.length :=
        fun hc => hy (Nat.lt_trans hc h)
      simp only [insMount, hy, if_false, hyb]
      simp only [insMount, hy, if_false, hyb, if_false, List.cons.injEq, true_and]
      exact ih

theorem find?_swap {P : MountPoint → Bool} {a b : MountPoint}
    (h : ¬(P a = true ∧ P b = true)) (rest : List MountPoint) :
    List.find? P (a :: b :: rest) = List.find? P (b :: a :: rest) := by
  cases ha : P a <;> cases hb : P b <;>
    simp_all [List.find?_cons]

theorem find?_ins_ins {a b : MountPoint} (hlen : a.path.length = b.path.length)
    {P : MountPoint → Bool} (hP : ¬(P a = true ∧ P b = true)) :
    ∀ S, List.find? P (insMount b (insMount a S)) = List.find? P (insMount a (insMount b S)) := by
  intro S
  induction S with
  | nil =>
    have h1 : ¬ a.path.length < b.path.length := by omega
    have h2 : ¬ b.path.length < a.path.length := by omega
    simp only [insMount, h1, h2, if_false]
    exact find?_swap hP []
  | cons y ys ih =>
    by_cases hy : y.path.length < a.path.length
    · have hyb : y.path.length < b.path.length := by omega
      have h1 : ¬ a.path.length < b.path.length := by omega
      have h2 : ¬ b.path.length < a.path.length := by omega
      simp only [insMount, hy, hyb, if_true, h1, h2, if_false]
      exact find?_swap hP (y :: ys)
    · have hyb : ¬ y.path.length < b.path.length := by omega
      simp only [insMount, hy, hyb, if_false]
      cases hPy : P y <;> simp_all [List.find?_cons]

/-- Every normalized mount path starts with a slash. -/
theorem cleanMountPath_slash (p : JStr) : ∃ t, cleanMountPath p = '/' :: t := by
  have base : ∃ t0, (if (js "/").isPrefixOf p then p else js "/" ++ p) = '/' :: t0 := by
    by_cases h : (js "/").isPrefixOf p = true
    · rw [if_pos h]
      cases p with
      | nil => simp [js, List.isPrefixOf] at h
      | cons c cs =>
        have hc : '/' = c := by simpa [js, List.isPrefixOf] using h
        exact ⟨cs, by rw [← hc]⟩
    · rw [if_neg (by simpa using h)]
      exact ⟨p, rfl⟩
  rcases base with ⟨t0, hb⟩
  have hcl : cleanMountPath p =
      if ('/' :: t0).length > 1 && (js "/").isSuffixOf ('/' :: t0) then ('/' :: t0).dropLast
      else ('/' :: t0) := by
    simp only [cleanMountPath]
    rw [hb]
  rw [hcl]
  cases hcond : (decide (('/' :: t0).length > 1) && (js "/").isSuffixOf ('/' :: t0)) with
  | true =>
    have hlen : ('/' :: t0).length > 1 := by
      have := (Bool.and_eq_true _ _).mp hcond
      exact of_decide_eq_true this.1
    have ht0 : t0 ≠ [] := by
      intro hc
      rw [hc] at hlen
      simp at hlen
    rw [if_pos rfl]
    exact ⟨t0.dropLast, List.dropLast_cons_of_ne_nil ht0⟩
  | false =>
    rw [if_neg (by simp)]
    exact ⟨t0, rfl⟩

/-- Two mounts with slash-initial paths of equal length matching the same
    path must have the same mount path. -/
theorem mountMatches_unique_len {q : JStr} {m1 m2 : MountPoint}
    (h1 : ∃ t, m1.path = '/' :: t) (h2 : ∃ t, m2.path = '/' :: t)
    (hlen : m1.path.length = m2.path.length)
    (hm1 : mountMatches m1 q = true) (hm2 : mountMatches m2 q = true) :
    m1.path = m2.path := by
  have conv1 : m1.path = q ∨ m1.path = js "/" ∨ (m1.path ++ js "/") <+: q := by
    simpa [mountMatches, Bool.or_eq_true, beq_iff_eq, List.isPrefixOf_iff_prefix,
      or_assoc] using hm1
  have conv2 : m2.path = q ∨ m2.path = js "/" ∨ (m2.path ++ js "/") <+: q := by
    simpa [mountMatches, Bool.or_eq_true, beq_iff_eq, List.isPrefixOf_iff_prefix,
      or_assoc] using hm2
  have len1 : m1.path = js "/" → m2.path = js "/" := by
    intro he
    rcases h2 with ⟨t, ht⟩
    have hl1 : ('/' :: t).length = 1 := by
      rw [← ht, ← hlen, he]
      rfl
    have ht0 : t = [] := by simpa using hl1
    rw [ht, ht0]
    rfl
  have len2 : m2.path = js "/" → m1.path = js "/" := by
    intro he
    rcases h1 with ⟨t, ht⟩
    have hl1 : ('/' :: t).length = 1 := by
      rw [← ht, hlen, he]
      rfl
    have ht0 : t = [] := by simpa using hl1
    rw [ht, ht0]
    rfl
  rcases conv1 with e1 | e1 | e1 <;> rcases conv2 with e2 | e2 | e2
  · rw [e1, e2]
  · rw [len2 e2, e2]
  · exfalso
    have hle : m2.path.length + 1 ≤ m1.path.length := by
      have h0 := e2.length_le
      rw [← e1] at h0
      simpa [js] using h0
    omega
  · rw [e1, len1 e1]
  · rw [e1, e2]
  · rw [e1, len1 e1]
  · exfalso
    have hle : m1.path.length + 1 ≤ m2.path.length := by
      have h0 := e1.length_le
      rw [← e2] at h0
      simpa [js] using h0
    omega
  · rw [len2 e2, e2]
  · have hpre : (m1.path ++ js "/") <+: (m2.path ++ js "/") :=
      List.prefix_of_prefix_length_le e1 e2 (by simp [hlen])
    have heq : m1.path ++ js "/" = m2.path ++ js "/" :=
      List.IsPrefix.eq_of_length hpre (by simp [hlen])
    exact List.append_cancel_right heq

theorem applyMounts_two [Inhabited σ] (D : DriverOps σ) (now d1 d2 : Nat) (p1 p2 : JStr)
    (vfs : CoreVFS) (w : World σ) :
    (applyMounts D now [(d1, p1), (d2, p2)] (vfs, w)).1.mounts =
      insMount { path := cleanMountPath p2, driverId := d2 }
        (insMount { path := cleanMountPath p1, driverId := d1 } (jsSortMounts vfs.mounts)) := by
  rw [applyMounts_cons, applyMounts_cons]
  show (vfsMount D _ _ now d2 p2).1.mounts = _
  rw [vfsMount_mounts, vfsMount_mounts]
  rw [jsSortMounts_of_sorted (insMount_sorted (jsSortMounts_sorted _))]

/-- C7: mounting two distinct (normalized) mount paths in either order yields
    mount tables on which resolve agrees at every path. -/
theorem mount_order_independent (vfs : CoreVFS) (w : World DriverState) (now d1 d2 : Nat)
    (p1 p2 : JStr) (hne : cleanMountPath p1 ≠ cleanMountPath p2) (q : JStr) :
    resolveVFS (applyMounts inMemOpsV1 now [(d1, p1), (d2, p2)] (vfs, w)).1 q =
    resolveVFS (applyMounts inMemOpsV1 now [(d2, p2), (d1, p1)] (vfs, w)).1 q := by
  have e1def : cleanMountPath p1 =
      ({ path := cleanMountPath p1, driverId := d1 } : MountPoint).path := rfl
  unfold resolveVFS
  rw [applyMounts_two, applyMounts_two]
  apply congrArg
  by_cases hl : (cleanMountPath p1).length = (cleanMountPath p2).length
  · refine find?_ins_ins hl ?_ (jsSortMounts vfs.mounts)
    rintro ⟨q1, q2⟩
    exact hne (mountMatches_unique_len (cleanMountPath_slash p1) (cleanMountPath_slash p2)
      hl q1 q2)
  · rcases Nat.lt_or_ge (cleanMountPath p2).length (cleanMountPath p1).length with h | h
    · exact congrArg _ (insMount_comm h _)
    · have h2 : (cleanMountPath p1).length < (cleanMountPath p2).length :=
        Nat.lt_of_le_of_ne h hl
      exact congrArg _ (insMount_comm h2 _).symm

/-- C7 witness: mounting `/a` then `/a/b` or the other way round resolves
    `/a/b/c` identically. -/
theorem mount_order_independent_witness :
    resolveVFS (applyMounts inMemOpsV1 0 [(0, js "/a"), (1, js "/a/b")]
      (⟨[]⟩, ([] : World DriverState))).1 (js "/a/b/c") =
    resolveVFS (applyMounts inMemOpsV1 0 [(1, js "/a/b"), (0, js "/a")]
      (⟨[]⟩, ([] : World DriverState))).1 (js "/a/b/c") :=
  mount_order_independent ⟨[]⟩ [] 0 0 1 (js "/a") (js "/a/b") (by decide) (js "/a/b/c")

/-! ## Facade error handling -/

/-- C2: when the two paths resolve to different drivers, rename throws
    CrossDevice and leaves every driver state unchanged (no fallback);
    when they resolve to the same driver, rename delegates to that driver
    with the two relative paths. -/
theorem rename_cross_device {σ : Type} [Inhabited σ] (D : DriverOps σ) (vfs : CoreVFS)
    (w : World σ) (now : Nat) (oldPath newPath : JStr) (s d : ResolvedPath)
    (hs : resolveVFS vfs oldPath = some s) (hd : resolveVFS vfs newPath = some d) :
    (s.driverId ≠ d.driverId →
      vfsRename D vfs w now oldPath newPath = (.error .crossDevice, w)) ∧
    (s.driverId = d.driverId →
      vfsRename D vfs w now oldPath newPath =
        (.ok (D.rename (getDrv w s.driverId) now s.relativePath d.relativePath).1,
          setDrv w s.driverId
            (D.rename (getDrv w s.driverId) now s.relativePath d.relativePath).2)) := by
  constructor
  · intro hne
    have hb : (s.driverId != d.driverId) = true := by simpa using hne
    simp [vfsRename, hs, hd, hb]
  · intro heq
    have hb : (s.driverId != d.driverId) = false := by simpa using heq
    simp [vfsRename, hs, hd, hb]

/-- C2 witness: with driver 1 at `/mnt` and driver 0 at `/`, renaming
    `/mnt/x.txt` to `/x.txt` fails with CrossDevice and changes nothing. -/
theorem rename_cross_device_witness :
    vfsRename inMemOpsV1 ⟨[⟨js "/mnt", 1⟩, ⟨js "/", 0⟩]⟩
      [default, default] 5 (js "/mnt/x.txt") (js "/x.txt") =
      (.error .crossDevice, [default, default]) :=
  (rename_cross_device inMemOpsV1 ⟨[⟨js "/mnt", 1⟩, ⟨js "/", 0⟩]⟩ [default, default] 5
      (js "/mnt/x.txt") (js "/x.txt")
      { driverId := 1, relativePath := js "/x.txt", mountPath := js "/mnt" }
      { driverId := 0, relativePath := js "/x.txt", mountPath := js "/" }
      (by decide) (by decide)).1 (by decide)

/-- C6: exists reports false instead of raising when no mount entry matches
    the path, and otherwise delegates to the owning driver with the
    relative path. -/
theorem exists_unmounted_false {σ : Type} [Inhabited σ] (D : DriverOps σ) (vfs : CoreVFS)
    (w : World σ) (p : JStr) :
    ((∀ mp ∈ vfs.mounts, mountMatches mp p = false) → vfsExists D vfs w p = false) ∧
    (∀ r, resolveVFS vfs p = some r →
      vfsExists D vfs w p = D.existsQ (getDrv w r.driverId) r.relativePath) := by
  constructor
  · intro h
    have hres : resolveVFS vfs p = none := by
      rw [resolveVFS, Option.map_eq_none', List.find?_eq_none]
      intro mp hmp
      simp [h mp hmp]
    simp [vfsExists, hres]
  · intro r hr
    simp [vfsExists, hr]

/-- C6 witness: with only `/a` mounted, `exists("/b")` is false rather than
    an error; and `/a/x` delegates to the driver's exists. -/
theorem exists_unmounted_false_witness :
    vfsExists inMemOpsV1 ⟨[⟨js "/a", 0⟩]⟩ [default] (js "/b") = false :=
  (exists_unmounted_false inMemOpsV1 ⟨[⟨js "/a", 0⟩]⟩ [default] (js "/b")).1 (by decide)

/-- C8: no entry of a listDirectory result has descriptor name `/`
    (the synthetic mount-root child a backend may report is filtered out). -/
theorem list_filters_root_entries {σ : Type} [Inhabited σ] (D : DriverOps σ) (vfs : CoreVFS)
    (w : World σ) (p : JStr) (files : List VFile)
    (h : vfsListDirectory D vfs w p = .ok files) :
    ∀ f ∈ files, ¬ f.descriptor.name = js "/" := by
  intro f hf
  unfold vfsListDirectory at h
  cases hres : resolveVFS vfs p with
  | none => rw [hres] at h; exact absurd h (by simp)
  | some r =>
    rw [hres] at h
    have hfiles : files = ((D.listDirectory (getDrv w r.driverId) r.relativePath).map
        (fun f => fixDescriptorPath f r.mountPath)).filter
          (fun f => f.descriptor.name != js "/") := by
      cases h
      rfl
    rw [hfiles] at hf
    have := (List.mem_filter.mp hf).2
    simpa using this

/-- A sample root directory descriptor as the in-memory driver creates it. -/
def rootDirFd : FileDescriptor :=
  { path := js "/", parent := -1, name := js "/", size := 0,
    isDirectory := true, createdAt := 0, modifiedAt := 0 }

/-- A sample file descriptor at `/a`. -/
def fileAFd : FileDescriptor :=
  { path := js "/a", parent := -1, name := js "a", size := 0,
    isDirectory := false, createdAt := 0, modifiedAt := 0 }

/-- C8 witness: the in-memory backend reports its own root (name `/`) as a
    child of itself, and the facade's listing of `/` filters it out, leaving
    only the real child. -/
theorem list_filters_root_entries_witness :
    ¬ (VFile.mk fileAFd).descriptor.name = js "/" :=
  list_filters_root_entries inMemOpsV1 ⟨[⟨js "/", 0⟩]⟩
    [{ descriptors := [rootDirFd, fileAFd], content := [(js "/a", [])] }] (js "/") _
    (by rfl) (VFile.mk fileAFd) (by decide)

/-! ## Cross-device copy result analysis -/

theorem vfsCopyChildren_no_crossDevice {σ : Type}
    (rec : JStr → JStr → World σ → Except VErr Bool × World σ)
    (hrec : ∀ a b w, ¬ (rec a b w).1 = .error .crossDevice) (srcPath destPath : JStr) :
    ∀ (L : List VFile) (w : World σ),
      ¬ (vfsCopyChildren rec srcPath destPath L w).1 = .error .crossDevice := by
  intro L
  induction L with
  | nil => intro w; simp [vfsCopyChildren]
  | cons c rest ih =>
    intro w
    simp only [vfsCopyChildren]
    cases hr : rec (joinChild srcPath c.descriptor.name)
        (joinChild destPath c.descriptor.name) w with
    | mk res w1 =>
      cases res with
      | error e =>
        intro hc
        simp only at hc
        apply hrec (joinChild srcPath c.descriptor.name)
          (joinChild destPath c.descriptor.name) w
        rw [hr]
        simpa using hc
      | ok b => simpa using ih w1

theorem vfsCopy_no_crossDevice {σ : Type} [Inhabited σ] (D : DriverOps σ) (vfs : CoreVFS)
    (dFuel : Nat) :
    ∀ (fuel now : Nat) (a b : JStr) (w : World σ),
      ¬ (vfsCopy D vfs dFuel fuel now a b w).1 = .error .crossDevice := by
  intro fuel
  induction fuel with
  | zero => intro now a b w; simp [vfsCopy]
  | succ n ih =>
    intro now a b w
    simp only [vfsCopy]
    cases hs : resolveVFS vfs a with
    | none => simp
    | some s =>
      cases hd : resolveVFS vfs b with
      | none => simp
      | some d =>
        by_cases hsame : s.driverId = d.driverId
        · simp [hsame]
        · have hb : (s.driverId == d.driverId) = false := by simpa using hsame
          simp only [hb, Bool.false_eq_true, if_false]
          cases hstat : D.stat (getDrv w s.driverId) s.relativePath with
          | none => simp
          | some st =>
            cases hdir : st.isDirectory with
            | false =>
              simp only [hdir, Bool.false_eq_true, if_false]
              cases hread : D.readFile (getDrv w s.driverId) s.relativePath with
              | none => simp
              | some data =>
                simp only
                have hcf : vfsCreateFile D vfs w now b =
                    (.ok ((D.createFile (getDrv w d.driverId) now d.relativePath).1.map
                      (fun f => fixDescriptorPath f d.mountPath)),
                     setDrv w d.driverId
                      (D.createFile (getDrv w d.driverId) now d.relativePath).2) := by
                  simp [vfsCreateFile, hd]
                rw [hcf]
                simp
            | true =>
              simp only [hdir, if_true]
              have hcd : vfsCreateDirectory D vfs w now b =
                  (.ok (D.createDirectory (getDrv w d.driverId) now d.relativePath).1,
                   setDrv w d.driverId
                    (D.createDirectory (getDrv w d.driverId) now d.relativePath).2) := by
                simp [vfsCreateDirectory, hd]
              rw [hcd]
              simp only
              have hld : vfsListDirectory D vfs
                  (setDrv w d.driverId
                    (D.createDirectory (getDrv w d.driverId) now d.relativePath).2) a =
                  .ok (((D.listDirectory
                      (getDrv (setDrv w d.driverId
                        (D.createDirectory (getDrv w d.driverId) now d.relativePath).2)
                        s.driverId) s.relativePath).map
                    (fun f => fixDescriptorPath f s.mountPath)).filter
                      (fun f => f.descriptor.name != js "/")) := by
                simp [vfsListDirectory, hs]
              rw [hld]
              simp only
              cases hloop : vfsCopyChildren (fun a2 b2 w2 => vfsCopy D vfs dFuel n now a2 b2 w2)
                  a b (((D.listDirectory
                      (getDrv (setDrv w d.driverId
                        (D.createDirectory (getDrv w d.driverId) now d.relativePath).2)
                        s.driverId) s.relativePath).map
                    (fun f => fixDescriptorPath f s.mountPath)).filter
                      (fun f => f.descriptor.name != js "/"))
                  (setDrv w d.driverId
                    (D.createDirectory (getDrv w d.driverId) now d.relativePath).2) with
              | mk res w2 =>
                cases res with
                | error e =>
                  intro hc
                  simp only at hc
                  apply vfsCopyChildren_no_crossDevice
                    (fun a2 b2 w2 => vfsCopy D vfs dFuel n now a2 b2 w2)
                    (fun a2 b2 w2 => ih now a2 b2 w2) a b _ _
                  rw [hloop]
                  simpa using hc
                | ok u => simp

/-- C9: in the cross-driver directory branch, copy returns true regardless of
    the boolean results of the recursive per-child copies (they are discarded);
    the only non-true outcome is a thrown NotMounted from resolving a child
    path, which propagates as an exception rather than a returned result. -/
theorem copy_dir_cross_device_true {σ : Type} [Inhabited σ] (D : DriverOps σ) (vfs : CoreVFS)
    (dFuel fuel now : Nat) (srcPath destPath : JStr) (w : World σ) (s d : ResolvedPath)
    (st : FileStats)
    (hs : resolveVFS vfs srcPath = some s) (hd : resolveVFS vfs destPath = some d)
    (hne : ¬ s.driverId = d.driverId)
    (hstat : D.stat (getDrv w s.driverId) s.relativePath = some st)
    (hdir : st.isDirectory = true) :
    (vfsCopy D vfs dFuel (fuel + 1) now srcPath destPath w).1 = .ok true ∨
    ∃ q, (vfsCopy D vfs dFuel (fuel + 1) now srcPath destPath w).1 =
      .error (.notMounted q) := by
  have hb : (s.driverId == d.driverId) = false := by simpa using hne
  simp only [vfsCopy, hs, hd, hb, Bool.false_eq_true, if_false, hstat, hdir, if_true]
  have hcd : vfsCreateDirectory D vfs w now destPath =
      (.ok (D.createDirectory (getDrv w d.driverId) now d.relativePath).1,
       setDrv w d.driverId
        (D.createDirectory (getDrv w d.driverId) now d.relativePath).2) := by
    simp [vfsCreateDirectory, hd]
  rw [hcd]
  simp only
  have hld : vfsListDirectory D vfs
      (setDrv w d.driverId
        (D.createDirectory (getDrv w d.driverId) now d.relativePath).2) srcPath =
      .ok (((D.listDirectory
          (getDrv (setDrv w d.driverId
            (D.createDirectory (getDrv w d.driverId) now d.relativePath).2)
            s.driverId) s.relativePath).map
        (fun f => fixDescriptorPath f s.mountPath)).filter
          (fun f => f.descriptor.name != js "/")) := by
    simp [vfsListDirectory, hs]
  rw [hld]
  simp only
  cases hloop : vfsCopyChildren (fun a2 b2 w2 => vfsCopy D vfs dFuel fuel now a2 b2 w2)
      srcPath destPath (((D.listDirectory
          (getDrv (setDrv w d.driverId
            (D.createDirectory (getDrv w d.driverId) now d.relativePath).2)
            s.driverId) s.relativePath).map
        (fun f => fixDescriptorPath f s.mountPath)).filter
          (fun f => f.descriptor.name != js "/"))
      (setDrv w d.driverId
        (D.createDirectory (getDrv w d.driverId) now d.relativePath).2) with
  | mk res w2 =>
    cases res with
    | ok u => left; simp
    | error e =>
      right
      cases e with
      | notMounted q => exact ⟨q, by simp⟩
      | crossDevice =>
        exfalso
        apply vfsCopyChildren_no_crossDevice
          (fun a2 b2 w2 => vfsCopy D vfs dFuel fuel now a2 b2 w2)
          (fun a2 b2 w2 => vfsCopy_no_crossDevice D vfs dFuel fuel now a2 b2 w2)
          srcPath destPath _ _
        rw [hloop]

/-- C9 witness: driver 1 at `/mnt` holding a root directory with one file,
    copied cross-device to `/dir` on driver 0, returns ok true. -/
theorem copy_dir_cross_device_true_witness :
    (vfsCopy inMemOpsV1 ⟨[⟨js "/mnt", 1⟩, ⟨js "/", 0⟩]⟩ 5 (5 + 1) 7
        (js "/mnt") (js "/dir")
        [{ descriptors := [rootDirFd], content := [] },
         { descriptors := [rootDirFd, fileAFd], content := [(js "/a", [])] }]).1 = .ok true ∨
    ∃ q, (vfsCopy inMemOpsV1 ⟨[⟨js "/mnt", 1⟩, ⟨js "/", 0⟩]⟩ 5 (5 + 1) 7
        (js "/mnt") (js "/dir")
        [{ descriptors := [rootDirFd], content := [] },
         { descriptors := [rootDirFd, fileAFd], content := [(js "/a", [])] }]).1 =
      .error (.notMounted q) :=
  copy_dir_cross_device_true inMemOpsV1 ⟨[⟨js "/mnt", 1⟩, ⟨js "/", 0⟩]⟩ 5 5 7
    (js "/mnt") (js "/dir")
    [{ descriptors := [rootDirFd], content := [] },
     { descriptors := [rootDirFd, fileAFd], content := [(js "/a", [])] }]
    { driverId := 1, relativePath := js "/", mountPath := js "/mnt" }
    { driverId := 0, relativePath := js "/dir", mountPath := js "/" }
    { size := 0, isDirectory := true, createdAt := 0, modifiedAt := 0 }
    (by decide) (by decide) (by decide) (by decide) (by decide)

/-! ## Driver rename revisions (C5) -/

/-- A directory descriptor at `/d`. -/
def dirDFd : FileDescriptor :=
  { path := js "/d", parent := -1, name := js "d", size := 0,
    isDirectory := true, createdAt := 0, modifiedAt := 0 }

/-- A one-byte file descriptor at `/d/f`. -/
def fileDFFd : FileDescriptor :=
  { path := js "/d/f", parent := -1, name := js "f", size := 1,
    isDirectory := false, createdAt := 0, modifiedAt := 0 }

/-- C5: renaming the directory `/d` (containing `/d/f`) to `/e` with the
    first-revision driver returns true but re-roots only the `/d` descriptor:
    the child stays at `/d/f` and nothing appears at `/e/f`, contradicting the
    contract that the whole subtree moves.  The revised driver of src/index.ts
    moves the subtree as specified. -/
theorem renameV1_leaves_subtree_behind :
    (memRenameV1 ⟨[dirDFd, fileDFFd], [(js "/d/f", [1])]⟩ 9 (js "/d") (js "/e")).1 = true ∧
    ((memRenameV1 ⟨[dirDFd, fileDFFd], [(js "/d/f", [1])]⟩ 9
        (js "/d") (js "/e")).2.descriptors.map FileDescriptor.path) = [js "/e", js "/d/f"] ∧
    findDescriptor (memRenameV1 ⟨[dirDFd, fileDFFd], [(js "/d/f", [1])]⟩ 9
        (js "/d") (js "/e")).2 (js "/e/f") = none ∧
    ((memRenameV2 ⟨[dirDFd, fileDFFd], [(js "/d/f", [1])]⟩ 9
        (js "/d") (js "/e")).2.descriptors.map FileDescriptor.path) = [js "/e", js "/e/f"] ∧
    mapGet (memRenameV2 ⟨[dirDFd, fileDFFd], [(js "/d/f", [1])]⟩ 9
        (js "/d") (js "/e")).2.content (js "/e/f") = some [1] := by
  decide

/-! ## Size invariant of the in-memory driver (C10) -/

/-- One descriptor's size agrees with the stored content (trivially for
    directories). -/
def sizeOk (s : DriverState) (d : FileDescriptor) : Bool :=
  d.isDirectory ||
    (match mapGet s.content d.path with
     | some b => (b.length : Int) == d.size
     | none => false)

/-- Every non-directory descriptor's size equals the byte length of the
    stored content at its path. -/
def sizeInv (s : DriverState) : Prop := ∀ d ∈ s.descriptors, sizeOk s d = true

/-- Journal paths are pairwise distinct. -/
def pathsNodup (s : DriverState) : Prop := (s.descriptors.map FileDescriptor.path).Nodup

instance sizeInvDecidable (s : DriverState) : Decidable (sizeInv s) :=
  List.decidableBAll _ _

instance pathsNodupDecidable (s : DriverState) : Decidable (pathsNodup s) :=
  List.nodupDecidable _

/-- C10 counterexample: starting from the empty driver, createDirectory `/a`,
    createFile `/a/c`, createFile `/b/c`, then the revised rename of `/a` to
    `/b` produce a journal with two descriptors at `/b/c`; the size invariant
    still holds there, yet a plain writeFile to `/b/c` (one of the four
    operations the claim says preserve it) breaks it, because only the first
    of the duplicate descriptors is updated. -/
theorem size_invariant_counterexample :
    sizeInv (memRenameV2 (memCreateFile (memCreateFile
        (memCreateDirectory ⟨[], []⟩ 0 (js "/a")).2 0 (js "/a/c")).2 0
        (js "/b/c")).2 0 (js "/a") (js "/b")).2 ∧
    (memWriteFile (memRenameV2 (memCreateFile (memCreateFile
        (memCreateDirectory ⟨[], []⟩ 0 (js "/a")).2 0 (js "/a/c")).2 0
        (js "/b/c")).2 0 (js "/a") (js "/b")).2 1 (js "/b/c") [5]).1 = true ∧
    ¬ sizeInv (memWriteFile (memRenameV2 (memCreateFile (memCreateFile
        (memCreateDirectory ⟨[], []⟩ 0 (js "/a")).2 0 (js "/a/c")).2 0
        (js "/b/c")).2 0 (js "/a") (js "/b")).2 1 (js "/b/c") [5]).2 := by
  decide

theorem find_rep_self (m : ContentMap) (k : JStr) (v : List Nat) :
    List.find? (fun e => e.1 == k) (m.map (fun e => if e.1 == k then (k, v) else e)) =
      if m.any (fun e => e.1 == k) then some (k, v) else none := by
  induction m with
  | nil => simp
  | cons a m ih =>
    cases ha : a.1 == k with
    | true =>
      have hift : (if a.1 == k then (k, v) else a) = (k, v) := by simp [ha]
      rw [List.map_cons, hift,
        @List.find?_cons_of_pos _ (fun e => e.1 == k) (k, v) _ (by simp)]
      simp [List.any_cons, ha]
    | false =>
      have hift : (if a.1 == k then (k, v) else a) = a := by simp [ha]
      rw [List.map_cons, hift,
        @List.find?_cons_of_neg _ (fun e => e.1 == k) a _ (by simp [ha]), ih,
        List.any_cons, ha, Bool.false_or]

theorem find_rep_other (m : ContentMap) (k k2 : JStr) (v : List Nat) (h : ¬ k2 = k) :
    List.find? (fun e => e.1 == k2) (m.map (fun e => if e.1 == k then (k, v) else e)) =
      List.find? (fun e => e.1 == k2) m := by
  induction m with
  | nil => rfl
  | cons a m ih =>
    cases ha : a.1 == k with
    | true =>
      have hap : a.1 = k := by simpa using ha
      have h2 : ¬ a.1 = k2 := by rw [hap]; exact fun hc => h hc.symm
      have hift : (if a.1 == k then (k, v) else a) = (k, v) := by simp [ha]
      rw [List.map_cons, hift,
        @List.find?_cons_of_neg _ (fun e => e.1 == k2) (k, v) _
          (by simp; exact fun hc => h hc.symm),
        @List.find?_cons_of_neg _ (fun e => e.1 == k2) a _ (by simp [h2])]
      exact ih
    | false =>
      have hift : (if a.1 == k then (k, v) else a) = a := by simp [ha]
      rw [List.map_cons, hift]
      cases ha2 : a.1 == k2 with
      | true =>
        rw [@List.find?_cons_of_pos _ (fun e => e.1 == k2) a _ ha2,
          @List.find?_cons_of_pos _ (fun e => e.1 == k2) a _ ha2]
      | false =>
        rw [@List.find?_cons_of_neg _ (fun e => e.1 == k2) a _ (by simp [ha2]),
          @List.find?_cons_of_neg _ (fun e => e.1 == k2) a _ (by simp [ha2])]
        exact ih

theorem find_append_one (m : ContentMap) (k : JStr) (v : List Nat)
    (h : m.any (fun e => e.1 == k) = false) :
    List.find? (fun e => e.1 == k) (m ++ [(k, v)]) = some (k, v) := by
  induction m with
  | nil => simp [List.find?_cons]
  | cons a m ih =>
    have h2 := h
    simp only [List.any_cons, Bool.or_eq_false_iff] at h2
    simp only [List.cons_append, List.find?_cons, h2.1]
    exact ih h2.2

theorem find_append_other (m : ContentMap) (k k2 : JStr) (v : List Nat) (h : ¬ k2 = k) :
    List.find? (fun e => e.1 == k2) (m ++ [(k, v)]) = List.find? (fun e => e.1 == k2) m := by
  induction m with
  | nil =>
    have h1 : ¬ k = k2 := fun hc => h hc.symm
    simp [List.find?_cons, h1]
  | cons a m ih =>
    simp only [List.cons_append, List.find?_cons]
    cases ha2 : a.1 == k2 with
    | true => rfl
    | false => exact ih

theorem mapGet_set_self (m : ContentMap) (k : JStr) (v : List Nat) :
    mapGet (mapSet m k v) k = some v := by
  unfold mapGet mapSet
  cases hany : m.any (fun e => e.1 == k) with
  | true =>
    rw [if_pos rfl, find_rep_self, if_pos hany]
    rfl
  | false =>
    rw [if_neg (by simp), find_append_one m k v hany]
    rfl

theorem mapGet_set_ne (m : ContentMap) (k k2 : JStr) (v : List Nat) (h : ¬ k2 = k) :
    mapGet (mapSet m k v) k2 = mapGet m k2 := by
  unfold mapGet mapSet
  cases hany : m.any (fun e => e.1 == k) with
  | true => rw [if_pos rfl, find_rep_other m k k2 v h]
  | false => rw [if_neg (by simp), find_append_other m k k2 v h]

theorem updFirst_map_path (f : FileDescriptor → FileDescriptor)
    (hf : ∀ y, (f y).path = y.path) (p : JStr) (l : List FileDescriptor) :
    (updFirst (fun d => d.path == p) f l).map FileDescriptor.path =
      l.map FileDescriptor.path := by
  induction l with
  | nil => rfl
  | cons a l ih =>
    cases ha : a.path == p with
    | true => simp [updFirst, ha, hf]
    | false => simp [updFirst, ha, ih]

theorem mem_unique_path {l : List FileDescriptor}
    (hnd : (l.map FileDescriptor.path).Nodup) {y z : FileDescriptor}
    (hy : y ∈ l) (hz : z ∈ l) (h : y.path = z.path) : y = z := by
  induction l with
  | nil => cases hy
  | cons a l ih =>
    have hnd2 : (a.path :: l.map FileDescriptor.path).Nodup := by
      rw [← List.map_cons]
      exact hnd
    rcases List.nodup_cons.mp hnd2 with ⟨hna, hnl⟩
    rcases List.mem_cons.mp hy with rfl | hy2 <;> rcases List.mem_cons.mp hz with rfl | hz2
    · rfl
    · refine absurd ?_ hna
      have hm := List.mem_map_of_mem FileDescriptor.path hz2
      rwa [← h] at hm
    · refine absurd ?_ hna
      have hm := List.mem_map_of_mem FileDescriptor.path hy2
      rwa [h] at hm
    · exact ih hnl hy2 hz2

theorem mem_updFirst_nodup {l : List FileDescriptor}
    (hnd : (l.map FileDescriptor.path).Nodup) (p : JStr)
    (f : FileDescriptor → FileDescriptor) {x : FileDescriptor}
    (hx : x ∈ updFirst (fun d => d.path == p) f l) :
    (x ∈ l ∧ ¬ x.path = p) ∨ ∃ y ∈ l, y.path = p ∧ x = f y := by
  induction l with
  | nil => cases hx
  | cons a l ih =>
    have hnd2 : (a.path :: l.map FileDescriptor.path).Nodup := by
      rw [← List.map_cons]
      exact hnd
    rcases List.nodup_cons.mp hnd2 with ⟨hna, hnl⟩
    cases ha : a.path == p with
    | true =>
      have hap : a.path = p := by simpa using ha
      rw [updFirst, if_pos ha] at hx
      rcases List.mem_cons.mp hx with rfl | hx2
      · exact Or.inr ⟨a, List.mem_cons_self _ _, hap, rfl⟩
      · refine Or.inl ⟨List.mem_cons_of_mem _ hx2, ?_⟩
        intro hc
        apply hna
        have hm := List.mem_map_of_mem FileDescriptor.path hx2
        rwa [hc, ← hap] at hm
    | false =>
      rw [updFirst, if_neg (by simp [ha])] at hx
      rcases List.mem_cons.mp hx with rfl | hx2
      · exact Or.inl ⟨List.mem_cons_self _ _, by simpa using ha⟩
      · rcases ih hnl hx2 with ⟨h1, h2⟩ | ⟨y, hy, h1, h2⟩
        · exact Or.inl ⟨List.mem_cons_of_mem _ h1, h2⟩
        · exact Or.inr ⟨y, List.mem_cons_of_mem _ hy, h1, h2⟩

theorem findDescriptor_none_iff {s : DriverState} {p : JStr} :
    findDescriptor s p = none ↔ ∀ d ∈ s.descriptors, ¬ d.path = p := by
  unfold findDescriptor
  rw [List.find?_eq_none]
  constructor
  · intro h d hd
    simpa using h d hd
  · intro h d hd
    simpa using h d hd

theorem findDescriptor_some_mem {s : DriverState} {p : JStr} {d : FileDescriptor}
    (h : findDescriptor s p = some d) : d ∈ s.descriptors ∧ d.path = p := by
  unfold findDescriptor at h
  exact ⟨List.mem_of_find?_eq_some h, by simpa using List.find?_some h⟩

theorem inv_createFile (s : DriverState) (now : Nat) (p : JStr)
    (hnd : pathsNodup s) (hsz : sizeInv s) :
    pathsNodup (memCreateFile s now p).2 ∧ sizeInv (memCreateFile s now p).2 := by
  cases hf : findDescriptor s p with
  | some d =>
    simp only [memCreateFile, hf]
    exact ⟨hnd, hsz⟩
  | none =>
    have hnp := findDescriptor_none_iff.mp hf
    simp only [memCreateFile, hf]
    constructor
    · unfold pathsNodup at hnd ⊢
      simp only [List.map_append, List.map_cons, List.map_nil]
      rw [List.nodup_append]
      refine ⟨hnd, by simp, ?_⟩
      intro q hq hq2
      simp only [List.mem_cons, List.not_mem_nil, or_false] at hq2
      subst hq2
      rcases List.mem_map.mp hq with ⟨d, hd, hdp⟩
      exact hnp d hd hdp
    · intro x hx
      rcases List.mem_append.mp hx with hx | hx
      · have hxp : ¬ x.path = p := hnp x hx
        have hold := hsz x hx
        unfold sizeOk at hold ⊢
        simp only at hold ⊢
        rw [mapGet_set_ne _ _ _ _ hxp]
        exact hold
      · simp only [List.mem_cons, List.not_mem_nil, or_false] at hx
        subst hx
        unfold sizeOk
        simp [mapGet_set_self]

theorem inv_writeFile (s : DriverState) (now : Nat) (p : JStr) (data : List Nat)
    (hnd : pathsNodup s) (hsz : sizeInv s) :
    pathsNodup (memWriteFile s now p data).2 ∧ sizeInv (memWriteFile s now p data).2 := by
  cases hf : findDescriptor s p with
  | none =>
    simp only [memWriteFile, hf]
    exact ⟨hnd, hsz⟩
  | some d =>
    cases hdir : d.isDirectory with
    | true =>
      simp only [memWriteFile, hf, hdir, if_true]
      exact ⟨hnd, hsz⟩
    | false =>
      simp only [memWriteFile, hf, hdir, Bool.false_eq_true, if_false]
      constructor
      · unfold pathsNodup at hnd ⊢
        simp only
        rw [updFirst_map_path
          (fun d2 => { d2 with size := (data.length : Int), modifiedAt := now })
          (fun y => rfl)]
        exact hnd
      · intro x hx
        simp only at hx
        rcases mem_updFirst_nodup hnd p _ hx with ⟨hxm, hxp⟩ | ⟨y, hy, hyp, hxy⟩
        · have hold := hsz x hxm
          unfold sizeOk at hold ⊢
          simp only at hold ⊢
          rw [mapGet_set_ne _ _ _ _ hxp]
          exact hold
        · rcases findDescriptor_some_mem hf with ⟨hdm, hdp⟩
          have hyd : y = d := mem_unique_path hnd hy hdm (by rw [hyp, hdp])
          subst hyd
          subst hxy
          simp [sizeOk, hdir, hdp, mapGet_set_self]

theorem inv_appendFile (s : DriverState) (now : Nat) (p : JStr) (data : List Nat)
    (hnd : pathsNodup s) (hsz : sizeInv s) :
    pathsNodup (memAppendFile s now p data).2 ∧ sizeInv (memAppendFile s now p data).2 := by
  cases hf : findDescriptor s p with
  | none =>
    simp only [memAppendFile, hf]
    exact ⟨hnd, hsz⟩
  | some d =>
    cases hg : mapGet s.content p with
    | none =>
      simp only [memAppendFile, hf, hg]
      exact ⟨hnd, hsz⟩
    | some cur =>
      cases hdir : d.isDirectory with
      | true =>
        simp only [memAppendFile, hf, hg, hdir, if_true]
        exact ⟨hnd, hsz⟩
      | false =>
        simp only [memAppendFile, hf, hg, hdir, Bool.false_eq_true, if_false]
        constructor
        · unfold pathsNodup at hnd ⊢
          simp only
          rw [updFirst_map_path
            (fun d2 => { d2 with size := ((cur ++ data).length : Int), modifiedAt := now })
            (fun y => rfl)]
          exact hnd
        · intro x hx
          simp only at hx
          rcases mem_updFirst_nodup hnd p _ hx with ⟨hxm, hxp⟩ | ⟨y, hy, hyp, hxy⟩
          · have hold := hsz x hxm
            unfold sizeOk at hold ⊢
            simp only at hold ⊢
            rw [mapGet_set_ne _ _ _ _ hxp]
            exact hold
          · rcases findDescriptor_some_mem hf with ⟨hdm, hdp⟩
            have hyd : y = d := mem_unique_path hnd hy hdm (by rw [hyp, hdp])
            subst hyd
            subst hxy
            simp [sizeOk, hdir, hdp, mapGet_set_self]

theorem jsSliceTo_length (data : List Nat) (len : Int) (h0 : 0 ≤ len)
    (hlt : len < (data.length : Int)) :
    ((jsSliceTo data len).length : Int) = len := by
  unfold jsSliceTo
  rw [if_neg (by omega), List.length_take]
  omega

theorem inv_truncate (s : DriverState) (now : Nat) (p : JStr) (len : Int)
    (hnd : pathsNodup s) (hsz : sizeInv s) (hlen : 0 ≤ len) :
    pathsNodup (memTruncate s now p len).2 ∧ sizeInv (memTruncate s now p len).2 := by
  cases hf : findDescriptor s p with
  | none =>
    simp only [memTruncate, hf]
    exact ⟨hnd, hsz⟩
  | some d =>
    cases hg : mapGet s.content p with
    | none =>
      simp only [memTruncate, hf, hg]
      exact ⟨hnd, hsz⟩
    | some data =>
      cases hdir : d.isDirectory with
      | true =>
        simp only [memTruncate, hf, hg, hdir, if_true]
        exact ⟨hnd, hsz⟩
      | false =>
        by_cases hlt : len < (data.length : Int)
        · simp only [memTruncate, hf, hg, hdir, Bool.false_eq_true, if_false, if_pos hlt]
          constructor
          · unfold pathsNodup at hnd ⊢
            simp only
            rw [updFirst_map_path
              (fun d2 => { d2 with size := len, modifiedAt := now })
              (fun y => rfl)]
            exact hnd
          · intro x hx
            simp only at hx
            rcases mem_updFirst_nodup hnd p _ hx with ⟨hxm, hxp⟩ | ⟨y, hy, hyp, hxy⟩
            · have hold := hsz x hxm
              unfold sizeOk at hold ⊢
              simp only at hold ⊢
              rw [mapGet_set_ne _ _ _ _ hxp]
              exact hold
            · rcases findDescriptor_some_mem hf with ⟨hdm, hdp⟩
              have hyd : y = d := mem_unique_path hnd hy hdm (by rw [hyp, hdp])
              subst hyd
              subst hxy
              simp [sizeOk, hdir, hdp, mapGet_set_self, jsSliceTo_length data len hlen hlt]
        · simp only [memTruncate, hf, hg, hdir, Bool.false_eq_true, if_false, if_neg hlt]
          exact ⟨hnd, hsz⟩

/-- C10 (amended): in the in-memory driver the size invariant (every
    non-directory descriptor's size equals the byte length of the stored
    content at its path) is preserved by createFile, writeFile, appendFile and
    truncate with a non-negative length, provided the journal's descriptor
    paths are pairwise distinct.  (Without that proviso the claim fails: the
    revised rename can produce duplicate paths, and writeFile then updates
    only the first duplicate, see the counterexample.) -/
theorem size_invariant_preserved (s : DriverState) (now : Nat) (p : JStr)
    (data : List Nat) (len : Int)
    (hnd : pathsNodup s) (hsz : sizeInv s) (hlen : 0 ≤ len) :
    (pathsNodup (memCreateFile s now p).2 ∧ sizeInv (memCreateFile s now p).2) ∧
    (pathsNodup (memWriteFile s now p data).2 ∧ sizeInv (memWriteFile s now p data).2) ∧
    (pathsNodup (memAppendFile s now p data).2 ∧ sizeInv (memAppendFile s now p data).2) ∧
    (pathsNodup (memTruncate s now p len).2 ∧ sizeInv (memTruncate s now p len).2) :=
  ⟨inv_createFile s now p hnd hsz, inv_writeFile s now p data hnd hsz,
   inv_appendFile s now p data hnd hsz, inv_truncate s now p len hnd hsz hlen⟩

/-- C10 witness: a single one-byte file at `/a`; all four operations keep the
    size invariant. -/
theorem size_invariant_preserved_witness :
    sizeInv (memWriteFile ⟨[fileAFd], [(js "/a", [])]⟩ 3 (js "/a") [7, 8]).2 ∧
    sizeInv (memAppendFile ⟨[fileAFd], [(js "/a", [])]⟩ 3 (js "/a") [7, 8]).2 ∧
    sizeInv (memTruncate ⟨[fileAFd], [(js "/a", [])]⟩ 3 (js "/a") 0).2 :=
  ⟨((size_invariant_preserved ⟨[fileAFd], [(js "/a", [])]⟩ 3 (js "/a") [7, 8] 0
      (by decide) (by decide) (by decide)).2.1).2,
   ((size_invariant_preserved ⟨[fileAFd], [(js "/a", [])]⟩ 3 (js "/a") [7, 8] 0
      (by decide) (by decide) (by decide)).2.2.1).2,
   ((size_invariant_preserved ⟨[fileAFd], [(js "/a", [])]⟩ 3 (js "/a") [7, 8] 0
      (by decide) (by decide) (by decide)).2.2.2).2⟩

/-! ## Cross-device copy: path utilities and tree model (C3) -/

/-- A path contains two consecutive slashes. -/
def hasDS : JStr → Bool
  | [] => false
  | [_] => false
  | a :: b :: t => (a == '/' && b == '/') || hasDS (b :: t)

/-- Normalized absolute path: leading slash, no `//`, no trailing slash
    except for the root `/` itself. -/
def PathOk (p : JStr) : Bool :=
  (js "/").isPrefixOf p && !hasDS p && (p == js "/" || p.getLast? != some '/')

/-- A valid path segment: nonempty and slash-free. -/
def SegOk (n : JStr) : Bool := !n.isEmpty && !n.contains '/'

/-- The prefix under which a directory's children live (drops the root slash). -/
def cleanRoot (p : JStr) : JStr := if p == js "/" then [] else p

/-- The path of the child named `n` of the directory at `p`. -/
def joinG (p n : JStr) : JStr := cleanRoot p ++ '/' :: n

/-- `q` lies in the subtree rooted at `root` (is `root` or below it). -/
def subPath (root q : JStr) : Bool :=
  q == root || (cleanRoot root ++ js "/").isPrefixOf q

/-- Abstract file trees: the shape and contents of a source subtree. -/
inductive FTree where
  | file (content : List Nat)
  | dir (children : List (JStr × FTree))
deriving Repr

def FTree.isDir : FTree → Bool
  | .file _ => false
  | .dir _ => true

mutual
def FTree.depth : FTree → Nat
  | .file _ => 0
  | .dir ch => 1 + FTree.depthL ch
def FTree.depthL : List (JStr × FTree) → Nat
  | [] => 0
  | c :: cs => max (FTree.depth c.2) (FTree.depthL cs)
end

mutual
def FTree.wf : FTree → Bool
  | .file _ => true
  | .dir ch =>
    ch.all (fun c => SegOk c.1) && decide ((ch.map Prod.fst).Nodup) && FTree.wfL ch
def FTree.wfL : List (JStr × FTree) → Bool
  | [] => true
  | c :: cs => FTree.wf c.2 && FTree.wfL cs
end

/-- Names of the journal entries the facade's listing of `p` would keep
    (immediate children whose name is not the synthetic root `/`). -/
def keptNames (σ : DriverState) (p : JStr) : List JStr :=
  (σ.descriptors.filter (fun d =>
    parentPath d.path == cleanRoot p && d.path != cleanRoot p && d.name != js "/")).map
      FileDescriptor.name

mutual
/-- The driver state holds exactly the tree `t` at path `p` (descriptor kinds
    and file contents as in `t`, each directory's kept listing naming exactly
    `t`'s children, without duplicates). -/
def treeAtB (σ : DriverState) : JStr → FTree → Bool
  | p, .file c =>
    (match findDescriptor σ p with
     | some d => !d.isDirectory
     | none => false) &&
    (mapGet σ.content p == some c)
  | p, .dir ch =>
    (match findDescriptor σ p with
     | some d => d.isDirectory
     | none => false) &&
    decide ((keptNames σ p).Nodup) &&
    σ.descriptors.all (fun d =>
      !(parentPath d.path == cleanRoot p && d.path != cleanRoot p && d.name != js "/") ||
      ch.any (fun c => d.path == joinG p c.1 && d.name == c.1)) &&
    treeAtChB σ p ch
def treeAtChB (σ : DriverState) : JStr → List (JStr × FTree) → Bool
  | _, [] => true
  | p, c :: cs =>
    (match findDescriptor σ (joinG p c.1) with
     | some d => d.name == c.1
     | none => false) &&
    treeAtB σ (joinG p c.1) c.2 &&
    treeAtChB σ p cs
end

mutual
/-- The driver state contains the tree `t` rooted at `p` (each node present
    with the right kind, file contents byte-for-byte equal). -/
def treeUnderB (σ : DriverState) : JStr → FTree → Bool
  | p, .file c =>
    (match findDescriptor σ p with
     | some d => !d.isDirectory
     | none => false) &&
    (mapGet σ.content p == some c)
  | p, .dir ch =>
    (match findDescriptor σ p with
     | some d => d.isDirectory
     | none => false) &&
    treeUnderChB σ p ch
def treeUnderChB (σ : DriverState) : JStr → List (JStr × FTree) → Bool
  | _, [] => true
  | p, c :: cs => treeUnderB σ (joinG p c.1) c.2 && treeUnderChB σ p cs
end

/-! ## Path lemmas for the copy proof -/

theorem hasDS_tail {a : Char} {l : JStr} (h : hasDS (a :: l) = false) : hasDS l = false := by
  cases l with
  | nil => rfl
  | cons b t =>
    have h2 := h
    rw [hasDS] at h2
    exact (Bool.or_eq_false_iff.mp h2).2

theorem not_contains_forall {l : JStr} {a : Char} (h : l.contains a = false) :
    ∀ c ∈ l, ¬ c = a := by
  intro c hc he
  subst he
  rw [← Bool.not_eq_true] at h
  exact h (List.elem_iff.mpr hc)

theorem hasDS_of_all_ne {l : JStr} (h : ∀ c ∈ l, ¬ c = '/') : hasDS l = false := by
  induction l with
  | nil => rfl
  | cons a t ih =>
    cases t with
    | nil => rfl
    | cons b t2 =>
      rw [hasDS]
      have ha : ¬ a = '/' := h a (List.mem_cons_self _ _)
      have hrest := ih (fun c hc => h c (List.mem_cons_of_mem _ hc))
      simp [ha, hrest]

theorem hasDS_append_seg {p n : JStr} (hp : hasDS p = false) (hl : ¬ p.getLast? = some '/')
    (hn : ∀ c ∈ n, ¬ c = '/') : hasDS (p ++ '/' :: n) = false := by
  induction p with
  | nil =>
    cases n with
    | nil => rfl
    | cons m t =>
      rw [List.nil_append, hasDS]
      have hm : ¬ m = '/' := hn m (List.mem_cons_self _ _)
      have hrest := hasDS_of_all_ne (l := m :: t) hn
      simp [hm, hrest]
  | cons a p ih =>
    cases hq : p with
    | nil =>
      subst hq
      have ha : ¬ a = '/' := by
        intro hc
        exact hl (by simp [hc])
      have hbase : hasDS ([] ++ '/' :: n) = false := by
        cases n with
        | nil => rfl
        | cons m t =>
          rw [List.nil_append, hasDS]
          have hm : ¬ m = '/' := hn m (List.mem_cons_self _ _)
          have hrest := hasDS_of_all_ne (l := m :: t) hn
          simp [hm, hrest]
      simp only [List.nil_append] at hbase
      show hasDS (a :: '/' :: n) = false
      rw [hasDS]
      simp [ha, hbase]
    | cons b t =>
      subst hq
      have h2 := hp
      rw [hasDS] at h2
      rcases Bool.or_eq_false_iff.mp h2 with ⟨hab, htail⟩
      have hl2 : ¬ (b :: t).getLast? = some '/' := by
        rw [List.getLast?_cons_cons] at hl
        exact hl
      have := ih htail hl2
      simp only [List.cons_append] at this ⊢
      rw [hasDS]
      simp [hab, this]

theorem replaceOnce_id {q : JStr} (h : hasDS q = false) :
    replaceOnce (js "//") (js "/") q = q := by
  induction q with
  | nil => rfl
  | cons c rest ih =>
    have hpre : (js "//").isPrefixOf (c :: rest) = false := by
      rw [Bool.eq_false_iff]
      intro hT
      rcases List.isPrefixOf_iff_prefix.mp hT with ⟨t2, ht⟩
      have hsplit : c = '/' ∧ rest = '/' :: t2 := by
        have ht2 : ('/' : Char) :: '/' :: t2 = c :: rest := ht
        exact ⟨(List.cons.injEq _ _ _ _ ▸ ht2).1.symm ▸ rfl,
          ((List.cons.injEq _ _ _ _ ▸ ht2).2).symm⟩
      rcases hsplit with ⟨rfl, hr⟩
      subst hr
      rw [hasDS] at h
      simp at h
    rw [replaceOnce, if_neg (by simp [hpre])]
    rw [ih (hasDS_tail h)]

theorem joinG_cons (p n : JStr) : joinG p n = cleanRoot p ++ '/' :: n := rfl

theorem cleanRoot_slash : cleanRoot (js "/") = [] := rfl

theorem cleanRoot_hasDS {p : JStr} (h : hasDS p = false) : hasDS (cleanRoot p) = false := by
  unfold cleanRoot
  by_cases hp : p == js "/"
  · simp [hp]
    rfl
  · simpa [hp] using h

theorem cleanRoot_getLast {p : JStr} (hp : PathOk p = true) :
    ¬ (cleanRoot p).getLast? = some '/' := by
  unfold cleanRoot
  by_cases he : p == js "/"
  · simp [he]
  · rw [if_neg (by simpa using he)]
    unfold PathOk at hp
    rcases Bool.and_eq_true_iff.mp hp with ⟨_, h3⟩
    rcases Bool.or_eq_true_iff.mp h3 with h4 | h4
    · exact absurd h4 (by simpa using he)
    · simpa using h4

theorem PathOk_parts {p : JStr} (hp : PathOk p = true) :
    (js "/").isPrefixOf p = true ∧ hasDS p = false ∧
      (p = js "/" ∨ ¬ p.getLast? = some '/') := by
  unfold PathOk at hp
  rcases Bool.and_eq_true_iff.mp hp with ⟨h12, h3⟩
  rcases Bool.and_eq_true_iff.mp h12 with ⟨h1, h2⟩
  refine ⟨h1, by simpa using h2, ?_⟩
  rcases Bool.or_eq_true_iff.mp h3 with h4 | h4
  · exact Or.inl (by simpa using h4)
  · exact Or.inr (by simpa using h4)

theorem SegOk_parts {n : JStr} (hn : SegOk n = true) :
    ¬ n = [] ∧ ∀ c ∈ n, ¬ c = '/' := by
  unfold SegOk at hn
  rcases Bool.and_eq_true_iff.mp hn with ⟨h1, h2⟩
  constructor
  · intro hc
    subst hc
    simp at h1
  · exact not_contains_forall (by simpa using h2)

theorem hasDS_joinG {p n : JStr} (hp : PathOk p = true) (hn : SegOk n = true) :
    hasDS (joinG p n) = false := by
  rcases PathOk_parts hp with ⟨_, hds, _⟩
  rcases SegOk_parts hn with ⟨_, hsf⟩
  exact hasDS_append_seg (cleanRoot_hasDS hds) (cleanRoot_getLast hp) hsf

theorem joinChild_eq {p n : JStr} (hp : PathOk p = true) (hn : SegOk n = true) :
    joinChild p n = joinG p n := by
  unfold joinChild
  by_cases he : p = js "/"
  · subst he
    show replaceOnce (js "//") (js "/") ('/' :: '/' :: n) = joinG (js "/") n
    rw [replaceOnce, if_pos (by simp [js, List.isPrefixOf])]
    show js "/" ++ ('/' :: '/' :: n).drop 2 = joinG (js "/") n
    rfl
  · have hjoin : p ++ js "/" ++ n = p ++ '/' :: n := by
      simp [js]
    rw [hjoin]
    have hds : hasDS (p ++ '/' :: n) = false := by
      rcases PathOk_parts hp with ⟨_, hds, hlast⟩
      rcases SegOk_parts hn with ⟨_, hsf⟩
      rcases hlast with h | h
      · exact absurd h he
      · exact hasDS_append_seg hds h hsf
    rw [replaceOnce_id hds]
    unfold joinG cleanRoot
    rw [if_neg (by simpa using he)]

theorem getLast_seg_ne {n : JStr} (hne : ¬ n = []) (hsf : ∀ c ∈ n, ¬ c = '/') :
    ¬ n.getLast? = some '/' := by
  intro hc
  cases n with
  | nil => exact hne rfl
  | cons a t =>
    have hm : '/' ∈ a :: t := by
      have := List.mem_getLast?_eq_getLast (by rw [hc]; exact rfl)
      rcases this with ⟨hh, he⟩
      rw [he]
      exact List.getLast_mem hh
    exact hsf '/' hm rfl

theorem joinG_getLast {p n : JStr} (hn : SegOk n = true) :
    ¬ (joinG p n).getLast? = some '/' := by
  rcases SegOk_parts hn with ⟨hne, hsf⟩
  rw [joinG_cons, List.getLast?_append]
  cases n with
  | nil => exact absurd rfl hne
  | cons a t =>
    rw [List.getLast?_cons_cons]
    intro hc
    rcases Option.or_eq_some.mp hc with h1 | ⟨h1, _⟩
    · exact getLast_seg_ne hne hsf h1
    · rw [List.getLast?_eq_none_iff] at h1
      cases h1

theorem joinG_starts {p : JStr} (hp : PathOk p = true) (n : JStr) :
    (js "/").isPrefixOf (joinG p n) = true := by
  rw [List.isPrefixOf_iff_prefix, joinG_cons]
  unfold cleanRoot
  by_cases he : p = js "/"
  · rw [if_pos (by simpa using he)]
    exact ⟨n, rfl⟩
  · rw [if_neg (by simpa using he)]
    rcases PathOk_parts hp with ⟨h1, _, _⟩
    rcases List.isPrefixOf_iff_prefix.mp h1 with ⟨t2, ht⟩
    exact ⟨t2 ++ '/' :: n, by rw [← List.append_assoc, ht]⟩

theorem PathOk_joinG {p n : JStr} (hp : PathOk p = true) (hn : SegOk n = true) :
    PathOk (joinG p n) = true := by
  unfold PathOk
  rw [Bool.and_eq_true_iff, Bool.and_eq_true_iff]
  refine ⟨⟨joinG_starts hp n, by simp [hasDS_joinG hp hn]⟩, ?_⟩
  rw [Bool.or_eq_true_iff]
  right
  simpa using joinG_getLast hn

theorem dropWhile_append_all {l l2 : JStr} {pred : Char → Bool}
    (h : ∀ c ∈ l, pred c = true) : (l ++ l2).dropWhile pred = l2.dropWhile pred := by
  induction l with
  | nil => rfl
  | cons a t ih =>
    rw [List.cons_append, List.dropWhile_cons, if_pos (h a (List.mem_cons_self _ _))]
    exact ih (fun c hc => h c (List.mem_cons_of_mem _ hc))

theorem takeWhile_append_all {l l2 : JStr} {pred : Char → Bool}
    (h : ∀ c ∈ l, pred c = true) (h2 : ∀ x, l2.head? = some x → pred x = false) :
    (l ++ l2).takeWhile pred = l := by
  induction l with
  | nil =>
    cases l2 with
    | nil => rfl
    | cons b t =>
      rw [List.nil_append, List.takeWhile_cons, if_neg (by simp [h2 b rfl])]
  | cons a t ih =>
    rw [List.cons_append, List.takeWhile_cons, if_pos (h a (List.mem_cons_self _ _))]
    rw [ih (fun c hc => h c (List.mem_cons_of_mem _ hc))]

theorem joinG_contains_slash (p n : JStr) : (joinG p n).contains '/' = true := by
  rw [joinG_cons]
  have hm : '/' ∈ cleanRoot p ++ '/' :: n := by
    rw [List.mem_append]
    right
    exact List.mem_cons_self _ _
  exact List.elem_iff.mpr hm

theorem parentPath_joinG {p n : JStr} (hsf : ∀ c ∈ n, ¬ c = '/') :
    parentPath (joinG p n) = cleanRoot p := by
  unfold parentPath
  rw [if_pos (joinG_contains_slash p n)]
  rw [joinG_cons, List.reverse_append, List.reverse_cons, List.append_assoc,
    List.singleton_append]
  rw [dropWhile_append_all (fun c hc => by
    simp only [decide_eq_true_iff]
    exact fun he => hsf c (by simpa using List.mem_reverse.mp hc) he)]
  rw [List.dropWhile_cons, if_neg (by simp)]
  simp

theorem lastSeg_joinG {p n : JStr} (hsf : ∀ c ∈ n, ¬ c = '/') :
    lastSeg (joinG p n) = n := by
  unfold lastSeg
  rw [joinG_cons, List.reverse_append, List.reverse_cons, List.append_assoc,
    List.singleton_append]
  rw [takeWhile_append_all (fun c hc => by
    simp only [decide_eq_true_iff]
    exact fun he => hsf c (by simpa using List.mem_reverse.mp hc) he)
    (fun x hx => by
      simp only [List.head?_cons, Option.some.injEq] at hx
      simp [← hx])]
  simp

theorem subPath_iff {root q : JStr} :
    subPath root q = true ↔ q = root ∨ ∃ r, q = cleanRoot root ++ '/' :: r := by
  unfold subPath
  rw [Bool.or_eq_true_iff]
  constructor
  · rintro (h | h)
    · exact Or.inl (by simpa using h)
    · rcases List.isPrefixOf_iff_prefix.mp h with ⟨t2, ht⟩
      refine Or.inr ⟨t2, ?_⟩
      rw [← ht]
      simp [js]
  · rintro (rfl | ⟨r, rfl⟩)
    · exact Or.inl (by simp)
    · refine Or.inr (List.isPrefixOf_iff_prefix.mpr ⟨r, ?_⟩)
      simp [js]

theorem subPath_refl (p : JStr) : subPath p p = true := by
  unfold subPath
  simp

theorem cleanRoot_length (p : JStr) : (cleanRoot p).length = p.length ∨
    (p = js "/" ∧ (cleanRoot p).length = 0) := by
  unfold cleanRoot
  by_cases he : p = js "/"
  · right
    simp [he]
  · left
    rw [if_neg (by simpa using he)]

theorem cleanRoot_joinG {p n : JStr} (hn : SegOk n = true) :
    cleanRoot (joinG p n) = joinG p n := by
  rcases SegOk_parts hn with ⟨hne, _⟩
  have hnlen : ¬ n.length = 0 := fun hz => hne (List.length_eq_zero.mp hz)
  unfold cleanRoot
  rw [if_neg]
  simp only [beq_iff_eq, joinG_cons]
  intro hc
  have hl := congrArg List.length hc
  simp [js] at hl
  omega

theorem subPath_joinG_self (p n : JStr) : subPath p (joinG p n) = true := by
  rw [subPath_iff]
  exact Or.inr ⟨n, rfl⟩

theorem subPath_below {p n q : JStr} (hn : SegOk n = true)
    (h : subPath (joinG p n) q = true) : subPath p q = true ∧ ¬ q = p := by
  rw [subPath_iff] at h
  rw [cleanRoot_joinG hn] at h
  have hq : ∃ r2, q = cleanRoot p ++ '/' :: (n ++ r2) := by
    rcases h with rfl | ⟨r, hr⟩
    · exact ⟨[], by simp [joinG_cons]⟩
    · exact ⟨'/' :: r, by simp [joinG_cons] at hr; simpa [List.append_assoc] using hr⟩
  rcases hq with ⟨r2, rfl⟩
  constructor
  · rw [subPath_iff]
    exact Or.inr ⟨n ++ r2, rfl⟩
  · intro hc
    have hl := congrArg List.length hc
    rcases SegOk_parts hn with ⟨hne, _⟩
    rcases cleanRoot_length p with h1 | ⟨h2, h3⟩
    · simp at hl
      have : ¬ n.length = 0 := fun hz => hne (List.length_eq_zero.mp hz)
      omega
    · rw [h2] at hl
      simp [h3, js] at hl
      have : ¬ n.length = 0 := fun hz => hne (List.length_eq_zero.mp hz)
      omega

theorem subPath_trans {a b q : JStr} (h1 : subPath a b = true) (h2 : subPath b q = true) :
    subPath a q = true := by
  rw [subPath_iff] at h1 h2 ⊢
  rcases h1 with rfl | ⟨r, rfl⟩
  · exact h2
  · by_cases hb : cleanRoot a ++ '/' :: r = js "/"
    · have hcl : cleanRoot (cleanRoot a ++ '/' :: r) = [] := by
        rw [hb]
        rfl
      have hra : cleanRoot a = [] := by
        have hl := congrArg List.length hb
        simp only [List.length_append, List.length_cons, js] at hl
        simp only [List.length_cons, List.length_nil] at hl
        exact List.length_eq_zero.mp (by omega)
      rcases h2 with he | ⟨r2, hr2⟩
      · rw [he, hb]
        exact Or.inr ⟨[], by rw [hra]; rfl⟩
      · rw [hcl] at hr2
        refine Or.inr ⟨r2, ?_⟩
        rw [hra, hr2]
    · have hcr : cleanRoot (cleanRoot a ++ '/' :: r) = cleanRoot a ++ '/' :: r := by
        show (if (cleanRoot a ++ '/' :: r : JStr) == js "/" then ([] : JStr)
          else cleanRoot a ++ '/' :: r) = cleanRoot a ++ '/' :: r
        rw [if_neg (by simpa using hb)]
      rcases h2 with rfl | ⟨r2, hr2⟩
      · exact Or.inr ⟨r, rfl⟩
      · rw [hcr] at hr2
        exact Or.inr ⟨r ++ '/' :: r2, by simp [hr2, List.append_assoc]⟩

theorem seg_unique {n1 n2 r1 r2 : JStr} (h1 : ∀ c ∈ n1, ¬ c = '/')
    (h2 : ∀ c ∈ n2, ¬ c = '/') (he : n1 ++ '/' :: r1 = n2 ++ '/' :: r2) :
    n1 = n2 ∧ r1 = r2 := by
  induction n1 generalizing n2 with
  | nil =>
    cases n2 with
    | nil => simpa using he
    | cons b t =>
      rw [List.nil_append, List.cons_append] at he
      have hb : '/' = b := (List.cons.injEq _ _ _ _ ▸ he).1
      exact absurd hb.symm (h2 b (List.mem_cons_self _ _))
  | cons a t ih =>
    cases n2 with
    | nil =>
      rw [List.nil_append, List.cons_append] at he
      have ha : a = '/' := (List.cons.injEq _ _ _ _ ▸ he).1
      exact absurd ha (h1 a (List.mem_cons_self _ _))
    | cons b t2 =>
      rw [List.cons_append, List.cons_append] at he
      have hab : a = b := (List.cons.injEq _ _ _ _ ▸ he).1
      have htail : t ++ '/' :: r1 = t2 ++ '/' :: r2 := (List.cons.injEq _ _ _ _ ▸ he).2
      rcases ih (fun c hc => h1 c (List.mem_cons_of_mem _ hc))
        (fun c hc => h2 c (List.mem_cons_of_mem _ hc)) htail with ⟨he1, he2⟩
      exact ⟨by rw [hab, he1], he2⟩

theorem subPath_disjoint {p n1 n2 q : JStr} (hn1 : SegOk n1 = true) (hn2 : SegOk n2 = true)
    (hne : ¬ n1 = n2) (h1 : subPath (joinG p n1) q = true) :
    subPath (joinG p n2) q = false := by
  rcases SegOk_parts hn1 with ⟨_, hsf1⟩
  rcases SegOk_parts hn2 with ⟨_, hsf2⟩
  rw [Bool.eq_false_iff]
  intro h2
  rw [subPath_iff, cleanRoot_joinG hn1] at h1
  rw [subPath_iff, cleanRoot_joinG hn2] at h2
  have hq1 : ∃ x1, q = cleanRoot p ++ '/' :: (n1 ++ x1) ∧ (x1 = [] ∨ ∃ y, x1 = '/' :: y) := by
    rcases h1 with rfl | ⟨r, hr⟩
    · exact ⟨[], by simp [joinG_cons], Or.inl rfl⟩
    · refine ⟨'/' :: r, ?_, Or.inr ⟨r, rfl⟩⟩
      rw [hr, joinG_cons]
      simp [List.append_assoc]
  have hq2 : ∃ x2, q = cleanRoot p ++ '/' :: (n2 ++ x2) ∧ (x2 = [] ∨ ∃ y, x2 = '/' :: y) := by
    rcases h2 with rfl | ⟨r, hr⟩
    · exact ⟨[], by simp [joinG_cons], Or.inl rfl⟩
    · refine ⟨'/' :: r, ?_, Or.inr ⟨r, rfl⟩⟩
      rw [hr, joinG_cons]
      simp [List.append_assoc]
  rcases hq1 with ⟨x1, he1, hx1⟩
  rcases hq2 with ⟨x2, he2, hx2⟩
  have hmain : n1 ++ x1 = n2 ++ x2 := by
    have := he1.symm.trans he2
    have h3 := List.append_cancel_left this
    exact (List.cons.injEq _ _ _ _ ▸ h3).2
  rcases hx1 with rfl | ⟨y1, rfl⟩ <;> rcases hx2 with rfl | ⟨y2, rfl⟩
  · simp at hmain
    exact hne hmain
  · have : '/' ∈ n1 := by
      rw [List.append_nil] at hmain
      rw [hmain, List.mem_append]
      right
      exact List.mem_cons_self _ _
    exact hsf1 '/' this rfl
  · have : '/' ∈ n2 := by
      rw [List.append_nil] at hmain
      rw [← hmain, List.mem_append]
      right
      exact List.mem_cons_self _ _
    exact hsf2 '/' this rfl
  · exact hne (seg_unique hsf1 hsf2 hmain).1

theorem subPath_joinG_not_root {p n : JStr} (hn : SegOk n = true) :
    subPath (joinG p n) p = false := by
  rcases SegOk_parts hn with ⟨hne, _⟩
  have hnlen : ¬ n.length = 0 := fun hz => hne (List.length_eq_zero.mp hz)
  rw [Bool.eq_false_iff]
  intro hc
  rw [subPath_iff, cleanRoot_joinG hn] at hc
  rcases hc with he | ⟨r, he⟩
  · have hl := congrArg List.length he
    rw [joinG_cons] at hl
    simp only [List.length_append, List.length_cons] at hl
    rcases cleanRoot_length p with hx | ⟨_, hx⟩
    · omega
    · have hpl : p.length = 1 := by
        rcases cleanRoot_length p with h2 | ⟨h2, _⟩
        · omega
        · rw [h2]; rfl
      omega
  · have hl := congrArg List.length he
    rw [joinG_cons] at hl
    simp only [List.length_append, List.length_cons] at hl
    rcases cleanRoot_length p with hx | ⟨hp2, hx⟩
    · omega
    · have hpl : p.length = 1 := by rw [hp2]; rfl
      omega

theorem subPath_antisymm {a b : JStr} (h1 : subPath a b = true) (h2 : subPath b a = true) :
    a = b := by
  rw [subPath_iff] at h1 h2
  rcases h1 with rfl | ⟨r1, hr1⟩
  · rfl
  · rcases h2 with rfl | ⟨r2, hr2⟩
    · rfl
    · have hl1 := congrArg List.length hr1
      have hl2 := congrArg List.length hr2
      simp only [List.length_append, List.length_cons] at hl1 hl2
      rcases cleanRoot_length a with hx1 | ⟨ha, hx1⟩
      · rcases cleanRoot_length b with hx2 | ⟨hb, hx2⟩
        · omega
        · have hbl : b.length = 1 := by rw [hb]; rfl
          omega
      · have hal : a.length = 1 := by rw [ha]; rfl
        rcases cleanRoot_length b with hx2 | ⟨hb, hx2⟩
        · omega
        · rw [ha, hb]

theorem region_child_excluded {src pS n m : JStr} (hsub : subPath src pS = true)
    (hn : SegOk n = true) (hm : subPath (joinG pS n) m = true) :
    subPath src m = true ∧ ¬ m = src := by
  rcases subPath_below hn hm with ⟨hps, hnps⟩
  refine ⟨subPath_trans hsub hps, ?_⟩
  intro hc
  subst hc
  exact hnps (subPath_antisymm hps hsub).symm

/-! ## Resolution stability under child joins -/

theorem find?_congr {α : Type} {p q : α → Bool} {l : List α}
    (h : ∀ x ∈ l, p x = q x) : l.find? p = l.find? q := by
  induction l with
  | nil => rfl
  | cons a t ih =>
    rw [List.find?_cons, List.find?_cons, h a (List.mem_cons_self _ _)]
    cases q a with
    | true => rfl
    | false => exact ih (fun x hx => h x (List.mem_cons_of_mem _ hx))

theorem find?_append_none {α : Type} {p : α → Bool} {l1 : List α} (l2 : List α)
    (h : l1.find? p = none) : (l1 ++ l2).find? p = l2.find? p := by
  induction l1 with
  | nil => rfl
  | cons a t ih =>
    cases hp : p a with
    | true =>
      rw [@List.find?_cons_of_pos _ p a t hp] at h
      cases h
    | false =>
      rw [List.find?_cons_of_neg t (by simp [hp])] at h
      rw [List.cons_append, List.find?_cons_of_neg _ (by simp [hp])]
      exact ih h

theorem find?_append_some {α : Type} {p : α → Bool} {l1 : List α} {x : α} (l2 : List α)
    (h : l1.find? p = some x) : (l1 ++ l2).find? p = some x := by
  induction l1 with
  | nil => cases h
  | cons a t ih =>
    cases hp : p a with
    | true =>
      rw [@List.find?_cons_of_pos _ p a t hp] at h
      rw [List.cons_append, @List.find?_cons_of_pos _ p a (t ++ l2) hp]
      exact h
    | false =>
      rw [List.find?_cons_of_neg t (by simp [hp])] at h
      rw [List.cons_append, List.find?_cons_of_neg _ (by simp [hp])]
      exact ih h

theorem updFirst_append_none {α : Type} {p : α → Bool} {l1 : List α}
    (f : α → α) (l2 : List α) (h : l1.find? p = none) :
    updFirst p f (l1 ++ l2) = l1 ++ updFirst p f l2 := by
  induction l1 with
  | nil => rfl
  | cons a t ih =>
    cases hp : p a with
    | true =>
      rw [@List.find?_cons_of_pos _ p a t hp] at h
      cases h
    | false =>
      rw [List.find?_cons_of_neg t (by simp [hp])] at h
      rw [List.cons_append, updFirst, if_neg (by simp [hp]), ih h, List.cons_append]

theorem mountMatches_iff {m : MountPoint} {q : JStr} :
    mountMatches m q = true ↔ m.path = q ∨ m.path = js "/" ∨ (m.path ++ js "/") <+: q := by
  simp [mountMatches, Bool.or_eq_true, beq_iff_eq, List.isPrefixOf_iff_prefix, or_assoc]

theorem mountMatches_join {m : MountPoint} {pS n : JStr} (hp : PathOk pS = true)
    (hn : SegOk n = true) (hnot : subPath (joinG pS n) m.path = false) :
    mountMatches m (joinG pS n) = mountMatches m pS := by
  rcases SegOk_parts hn with ⟨hnne, hsf⟩
  cases hps : mountMatches m pS with
  | true =>
    rw [mountMatches_iff] at hps
    rw [mountMatches_iff]
    rcases hps with e | e | e
    · by_cases hroot : pS = js "/"
      · subst hroot
        exact Or.inr (Or.inl e)
      · refine Or.inr (Or.inr ⟨n, ?_⟩)
        rw [e, joinG_cons]
        unfold cleanRoot
        rw [if_neg (by simpa using hroot)]
        simp [js]
    · exact Or.inr (Or.inl e)
    · rcases e with ⟨t, ht⟩
      by_cases hroot : pS = js "/"
      · subst hroot
        have hparts : m.path = [] ∧ t = [] := by
          have hl := congrArg List.length ht
          simp [js] at hl
          exact ⟨List.length_eq_zero.mp (by omega), List.length_eq_zero.mp (by omega)⟩
        refine Or.inr (Or.inr ⟨n, ?_⟩)
        rw [hparts.1]
        rfl
      · refine Or.inr (Or.inr ?_)
        have h1 : (m.path ++ js "/") <+: pS := ⟨t, ht⟩
        have h2 : pS <+: joinG pS n := by
          rw [joinG_cons]
          unfold cleanRoot
          rw [if_neg (by simpa using hroot)]
          exact ⟨'/' :: n, rfl⟩
        exact h1.trans h2
  | false =>
    rw [Bool.eq_false_iff] at hps ⊢
    intro hc
    apply hps
    rw [mountMatches_iff] at hc
    rw [mountMatches_iff]
    rcases hc with e | e | e
    · exfalso
      rw [← e] at hnot
      rw [subPath_refl] at hnot
      cases hnot
    · exact Or.inr (Or.inl e)
    · rcases e with ⟨t, ht⟩
      rw [joinG_cons] at ht
      by_cases hlen : m.path.length + 1 ≤ (cleanRoot pS).length
      · have hpre1 : (m.path ++ js "/") <+: cleanRoot pS ++ '/' :: n := ⟨t, ht⟩
        have hpre2 : cleanRoot pS <+: cleanRoot pS ++ '/' :: n := ⟨'/' :: n, rfl⟩
        have hpre3 : (m.path ++ js "/") <+: cleanRoot pS :=
          List.prefix_of_prefix_length_le hpre1 hpre2 (by simp [js]; omega)
        by_cases hroot : pS = js "/"
        · exfalso
          rw [hroot] at hlen
          simp [cleanRoot] at hlen
        · unfold cleanRoot at hpre3
          rw [if_neg (by simpa using hroot)] at hpre3
          exact Or.inr (Or.inr hpre3)
      · by_cases heq : m.path.length = (cleanRoot pS).length
        · have hpre1 : (m.path ++ js "/") <+: cleanRoot pS ++ '/' :: n := ⟨t, ht⟩
          have hpre2 : (cleanRoot pS ++ js "/") <+: cleanRoot pS ++ '/' :: n := by
            refine ⟨n, ?_⟩
            simp [js]
          have heq2 : m.path ++ js "/" = cleanRoot pS ++ js "/" := by
            refine List.IsPrefix.eq_of_length
              (List.prefix_of_prefix_length_le hpre1 hpre2 (by simp [js, heq])) ?_
            simp [js, heq]
          have heq3 : m.path = cleanRoot pS := List.append_cancel_right heq2
          by_cases hroot : pS = js "/"
          · subst hroot
            have : m.path = [] := by simpa [cleanRoot] using heq3
            refine Or.inr (Or.inr ⟨[], ?_⟩)
            rw [this]
            rfl
          · unfold cleanRoot at heq3
            rw [if_neg (by simpa using hroot)] at heq3
            exact Or.inl heq3
        · exfalso
          have hlen2 : (cleanRoot pS).length + 1 ≤ m.path.length := by omega
          have hpre1 : m.path <+: cleanRoot pS ++ '/' :: n := by
            exact List.IsPrefix.trans ⟨js "/", rfl⟩ ⟨t, ht⟩
          have hpre2 : (cleanRoot pS ++ js "/") <+: cleanRoot pS ++ '/' :: n := by
            refine ⟨n, ?_⟩
            simp [js]
          have hpre3 : (cleanRoot pS ++ js "/") <+: m.path :=
            List.prefix_of_prefix_length_le hpre2 hpre1 (by simp [js]; omega)
          rcases hpre3 with ⟨u, hu⟩
          have hnn : u ++ '/' :: t = n := by
            have ht2 : (cleanRoot pS ++ js "/") ++ (u ++ '/' :: t) =
                (cleanRoot pS ++ js "/") ++ n := by
              rw [← List.append_assoc, hu]
              have hr : cleanRoot pS ++ js "/" ++ n = cleanRoot pS ++ '/' :: n := by
                simp [js]
              rw [hr, ← ht]
              simp [js]
            exact List.append_cancel_left ht2
        -- '/' is in n: contradiction with slash-free
          have : '/' ∈ n := by
            rw [← hnn, List.mem_append]
            right
            exact List.mem_cons_self _ _
          exact hsf '/' this rfl

theorem mkResolved_nil {m : MountPoint} {q : JStr} (hd : q.drop m.path.length = []) :
    mkResolved m q = ⟨m.driverId, js "/", m.path⟩ := by
  simp only [mkResolved]
  rw [hd]
  rfl

theorem mkResolved_slash {m : MountPoint} {q u : JStr}
    (hd : q.drop m.path.length = '/' :: u) :
    mkResolved m q = ⟨m.driverId, '/' :: u, m.path⟩ := by
  have hb : (js "/").isPrefixOf ('/' :: u) = true := by
    rw [List.isPrefixOf_iff_prefix]
    exact ⟨u, rfl⟩
  simp only [mkResolved]
  rw [hd]
  rw [show (if ('/' :: u : JStr) = [] then js "/" else '/' :: u) = '/' :: u from
    if_neg (fun hcon => List.noConfusion hcon)]
  rw [hb, Bool.not_true, Bool.and_false]
  rw [if_neg (fun hcon => Bool.noConfusion hcon)]

theorem mkResolved_seg {m : MountPoint} {q u : JStr} {c : Char}
    (hd : q.drop m.path.length = c :: u) (hc : ¬ c = '/') :
    mkResolved m q = ⟨m.driverId, '/' :: c :: u, m.path⟩ := by
  have hb : (js "/").isPrefixOf (c :: u) = false := by
    rw [Bool.eq_false_iff]
    intro hcon
    rw [List.isPrefixOf_iff_prefix] at hcon
    rcases hcon with ⟨w, hw⟩
    rw [show js "/" = ['/'] from rfl] at hw
    simp only [List.singleton_append, List.cons.injEq] at hw
    exact hc hw.1.symm
  simp only [mkResolved]
  rw [hd]
  rw [show (if c :: u = [] then js "/" else c :: u) = c :: u from
    if_neg (fun hcon => List.noConfusion hcon)]
  rw [hb, Bool.not_false, Bool.and_true]
  rw [if_pos (show decide ((c :: u).length > 0) = true from by
    rw [decide_eq_true_eq]
    exact Nat.succ_pos _)]
  rfl

theorem mkResolved_join {m : MountPoint} {pS n : JStr} (hmt : mountMatches m pS = true)
    (hp : PathOk pS = true) (hn : SegOk n = true) :
    mkResolved m (joinG pS n) =
      ⟨m.driverId, joinG (mkResolved m pS).relativePath n, m.path⟩ := by
  rcases SegOk_parts hn with ⟨hnne, hsf⟩
  obtain ⟨c, u, rfl⟩ : ∃ c u, n = c :: u := by
    cases n with
    | nil => exact absurd rfl hnne
    | cons c u => exact ⟨c, u, rfl⟩
  have hcsl : ¬ c = '/' := hsf c (List.mem_cons_self _ _)
  by_cases hroot : pS = js "/"
  · subst hroot
    rcases mountMatches_iff.mp hmt with e | e | ⟨t, ht⟩
    · have h1 : mkResolved m (js "/") = ⟨m.driverId, js "/", m.path⟩ :=
        mkResolved_nil (by rw [e]; exact List.drop_length _)
      have hd : (joinG (js "/") (c :: u)).drop m.path.length = c :: u := by
        rw [e]
        rfl
      rw [mkResolved_seg hd hcsl, h1]
      rfl
    · have h1 : mkResolved m (js "/") = ⟨m.driverId, js "/", m.path⟩ :=
        mkResolved_nil (by rw [e]; exact List.drop_length _)
      have hd : (joinG (js "/") (c :: u)).drop m.path.length = c :: u := by
        rw [e]
        rfl
      rw [mkResolved_seg hd hcsl, h1]
      rfl
    · have hm0 : m.path = [] := by
        have hl := congrArg List.length ht
        simp [js] at hl
        exact List.length_eq_zero.mp (by omega)
      have h1 : mkResolved m (js "/") = ⟨m.driverId, '/' :: ([] : JStr), m.path⟩ :=
        mkResolved_slash (by rw [hm0]; rfl)
      have hd : (joinG (js "/") (c :: u)).drop m.path.length = '/' :: (c :: u) := by
        rw [hm0]
        rfl
      rw [mkResolved_slash hd, h1]
      rfl
  · rcases PathOk_parts hp with ⟨hpre, hds, hlast⟩
    obtain ⟨tp, rfl⟩ : ∃ tp, pS = '/' :: tp := by
      rcases List.isPrefixOf_iff_prefix.mp hpre with ⟨rest, hrest⟩
      exact ⟨rest, hrest.symm⟩
    obtain ⟨d, v, rfl⟩ : ∃ d v, tp = d :: v := by
      cases tp with
      | nil => exact absurd rfl hroot
      | cons d v => exact ⟨d, v, rfl⟩
    have hdsl : ¬ d = '/' := by
      intro hc
      subst hc
      simp [hasDS] at hds
    have hclean : cleanRoot ('/' :: d :: v) = '/' :: d :: v := by
      unfold cleanRoot
      rw [if_neg (by simpa using hroot)]
    have hjoin : joinG ('/' :: d :: v) (c :: u) = ('/' :: d :: v) ++ '/' :: c :: u := by
      rw [joinG_cons, hclean]
    rcases mountMatches_iff.mp hmt with e | e | ⟨t, ht⟩
    · have h1 : mkResolved m ('/' :: d :: v) = ⟨m.driverId, js "/", m.path⟩ :=
        mkResolved_nil (by rw [e]; exact List.drop_length _)
      have hd2 : (joinG ('/' :: d :: v) (c :: u)).drop m.path.length = '/' :: (c :: u) := by
        rw [hjoin, e]
        exact List.drop_left _ _
      rw [mkResolved_slash hd2, h1]
      rfl
    · have h1 : mkResolved m ('/' :: d :: v) = ⟨m.driverId, '/' :: d :: v, m.path⟩ :=
        mkResolved_seg (u := v) (by rw [e]; rfl) hdsl
      have hd2 : (joinG ('/' :: d :: v) (c :: u)).drop m.path.length =
          d :: (v ++ '/' :: c :: u) := by
        rw [hjoin, e]
        rfl
      rw [mkResolved_seg hd2 hdsl, h1]
      rfl
    · obtain ⟨e0, t, rfl⟩ : ∃ e0 t2, t = e0 :: t2 := by
        cases t with
        | nil =>
          exfalso
          rcases hlast with h | h
          · exact hroot h
          · apply h
            rw [← ht, List.append_nil]
            show (m.path ++ ['/']).getLast? = some '/'
            exact List.getLast?_concat _
        | cons e0 t2 => exact ⟨e0, t2, rfl⟩
      have h1 : mkResolved m ('/' :: d :: v) = ⟨m.driverId, '/' :: (e0 :: t), m.path⟩ := by
        refine mkResolved_slash ?_
        rw [← ht, List.append_assoc]
        exact List.drop_left _ _
      have hd2 : (joinG ('/' :: d :: v) (c :: u)).drop m.path.length =
          '/' :: (e0 :: t ++ '/' :: c :: u) := by
        rw [hjoin, ← ht, List.append_assoc, List.append_assoc]
        exact List.drop_left _ _
      rw [mkResolved_slash hd2, h1]
      rfl

theorem resolve_step {vfs : CoreVFS} {pS n : JStr} {r : ResolvedPath}
    (hres : resolveVFS vfs pS = some r) (hp : PathOk pS = true) (hn : SegOk n = true)
    (hnot : ∀ m ∈ vfs.mounts, subPath (joinG pS n) m.path = false) :
    resolveVFS vfs (joinG pS n) = some ⟨r.driverId, joinG r.relativePath n, r.mountPath⟩ := by
  unfold resolveVFS at hres ⊢
  rcases Option.map_eq_some'.mp hres with ⟨m0, hfind, hmk⟩
  have hm0 : mountMatches m0 pS = true := by
    have hx := List.find?_some hfind
    simpa using hx
  rw [find?_congr (fun m hm => mountMatches_join hp hn (hnot m hm)), hfind]
  rw [Option.map_some']
  rw [mkResolved_join hm0 hp hn]
  rw [← hmk]
  rfl

/-! ## World and freshness lemmas -/

theorem getDrv_setDrv_self [Inhabited σ] {w : World σ} {i : Nat} (hi : i < w.length)
    (s : σ) : getDrv (setDrv w i s) i = s := by
  unfold getDrv setDrv
  rw [List.getD_eq_getElem?_getD, List.getElem?_set_self', List.getElem?_eq_getElem hi]
  rfl

theorem getDrv_setDrv_ne [Inhabited σ] (w : World σ) {i j : Nat} (h : ¬ j = i)
    (s : σ) : getDrv (setDrv w i s) j = getDrv w j := by
  unfold getDrv setDrv
  rw [List.getD_eq_getElem?_getD, List.getD_eq_getElem?_getD, List.getElem?_set_ne]
  exact fun hc => h hc.symm

theorem length_setDrv (w : World σ) (i : Nat) (s : σ) :
    (setDrv w i s).length = w.length := List.length_set w i s

/-- No mount point lies strictly inside the subtree rooted at `p`. -/
@[reducible] def noMountBelow (vfs : CoreVFS) (p : JStr) : Prop :=
  ∀ m ∈ vfs.mounts, subPath p m.path = true → m.path = p

theorem noMountBelow_join {vfs : CoreVFS} {p n : JStr} (hn : SegOk n = true)
    (h : noMountBelow vfs p) :
    (∀ m ∈ vfs.mounts, subPath (joinG p n) m.path = false) ∧
      noMountBelow vfs (joinG p n) := by
  have hout : ∀ m ∈ vfs.mounts, subPath (joinG p n) m.path = false := by
    intro m hm
    rw [Bool.eq_false_iff]
    intro hc
    rcases region_child_excluded (subPath_refl p) hn hc with ⟨hbelow, hne⟩
    exact hne (h m hm hbelow)
  refine ⟨hout, ?_⟩
  intro m hm hc
  rw [hout m hm] at hc
  cases hc

theorem find?_append_singleton_ne {α : Type} {p : α → Bool} {x : α} (l : List α)
    (h : p x = false) : (l ++ [x]).find? p = l.find? p := by
  cases hf : l.find? p with
  | some y => exact find?_append_some _ hf
  | none =>
    rw [find?_append_none _ hf]
    rw [List.find?_cons_of_neg _ (by simp [h])]
    rfl

/-! ## Tree predicate destructuring -/

theorem wfL_mem {ch : List (JStr × FTree)} (h : FTree.wfL ch = true) :
    ∀ c ∈ ch, FTree.wf c.2 = true := by
  induction ch with
  | nil => intro c hc; cases hc
  | cons a t ih =>
    rw [FTree.wfL, Bool.and_eq_true_iff] at h
    intro c hc
    rcases List.mem_cons.mp hc with rfl | hc2
    · exact h.1
    · exact ih h.2 c hc2

theorem wf_dir_parts {ch : List (JStr × FTree)} (h : FTree.wf (.dir ch) = true) :
    (∀ c ∈ ch, SegOk c.1 = true) ∧ (ch.map Prod.fst).Nodup ∧
      ∀ c ∈ ch, FTree.wf c.2 = true := by
  rw [FTree.wf, Bool.and_eq_true_iff, Bool.and_eq_true_iff] at h
  refine ⟨?_, ?_, wfL_mem h.2⟩
  · intro c hc
    exact List.all_eq_true.mp h.1.1 c hc
  · exact of_decide_eq_true h.1.2

theorem depth_le_depthL {c : JStr × FTree} {ch : List (JStr × FTree)} (hc : c ∈ ch) :
    FTree.depth c.2 ≤ FTree.depthL ch := by
  induction ch with
  | nil => cases hc
  | cons a t ih =>
    rw [FTree.depthL]
    rcases List.mem_cons.mp hc with rfl | hc2
    · exact Nat.le_max_left _ _
    · exact Nat.le_trans (ih hc2) (Nat.le_max_right _ _)

theorem treeAtB_file_parts {σ0 : DriverState} {p : JStr} {c : List Nat}
    (h : treeAtB σ0 p (.file c) = true) :
    (∃ d, findDescriptor σ0 p = some d ∧ d.isDirectory = false) ∧
      mapGet σ0.content p = some c := by
  rw [treeAtB, Bool.and_eq_true_iff] at h
  refine ⟨?_, by simpa using h.2⟩
  rcases hf : findDescriptor σ0 p with _ | d
  · rw [hf] at h; cases h.1
  · rw [hf] at h
    exact ⟨d, rfl, by simpa using h.1⟩

theorem treeAtB_dir_parts {σ0 : DriverState} {p : JStr} {ch : List (JStr × FTree)}
    (h : treeAtB σ0 p (.dir ch) = true) :
    (∃ d, findDescriptor σ0 p = some d ∧ d.isDirectory = true) ∧
      (keptNames σ0 p).Nodup ∧
      (∀ d ∈ σ0.descriptors,
        (parentPath d.path == cleanRoot p && d.path != cleanRoot p &&
          d.name != js "/") = true →
        ∃ c ∈ ch, d.path = joinG p c.1 ∧ d.name = c.1) ∧
      treeAtChB σ0 p ch = true := by
  rw [treeAtB, Bool.and_eq_true_iff, Bool.and_eq_true_iff, Bool.and_eq_true_iff] at h
  rcases h with ⟨⟨⟨h1, h2⟩, h3⟩, h4⟩
  refine ⟨?_, of_decide_eq_true h2, ?_, h4⟩
  · rcases hf : findDescriptor σ0 p with _ | d
    · rw [hf] at h1; cases h1
    · rw [hf] at h1
      exact ⟨d, rfl, h1⟩
  · intro d hd hkeep
    have h5 := List.all_eq_true.mp h3 d hd
    rw [hkeep, Bool.not_true, Bool.false_or] at h5
    rcases List.any_eq_true.mp h5 with ⟨c, hc, hcp⟩
    rw [Bool.and_eq_true_iff] at hcp
    exact ⟨c, hc, by simpa using hcp.1, by simpa using hcp.2⟩

theorem treeAtChB_mem {σ0 : DriverState} {p : JStr} {ch : List (JStr × FTree)}
    (h : treeAtChB σ0 p ch = true) :
    ∀ c ∈ ch, (∃ d, findDescriptor σ0 (joinG p c.1) = some d ∧ d.name = c.1) ∧
      treeAtB σ0 (joinG p c.1) c.2 = true := by
  induction ch with
  | nil => intro c hc; cases hc
  | cons a t ih =>
    rw [treeAtChB, Bool.and_eq_true_iff, Bool.and_eq_true_iff] at h
    intro c hc
    rcases List.mem_cons.mp hc with rfl | hc2
    · refine ⟨?_, h.1.2⟩
      rcases hf : findDescriptor σ0 (joinG p c.1) with _ | d
      · rw [hf] at h; rcases h with ⟨⟨h0, _⟩, _⟩; cases h0
      · rw [hf] at h
        exact ⟨d, rfl, by simpa using h.1.1⟩
    · exact ih h.2 c hc2

theorem treeUnderChB_iff {σ0 : DriverState} {p : JStr} {ch : List (JStr × FTree)} :
    treeUnderChB σ0 p ch = true ↔
      ∀ c ∈ ch, treeUnderB σ0 (joinG p c.1) c.2 = true := by
  induction ch with
  | nil => simp [treeUnderChB]
  | cons a t ih =>
    rw [treeUnderChB, Bool.and_eq_true_iff, ih]
    constructor
    · intro h c hc
      rcases List.mem_cons.mp hc with rfl | hc2
      · exact h.1
      · exact h.2 c hc2
    · intro h
      exact ⟨h a (List.mem_cons_self _ _), fun c hc => h c (List.mem_cons_of_mem _ hc)⟩

theorem nodup_fst_eq {α β : Type} [DecidableEq α] {l : List (α × β)}
    (h : (l.map Prod.fst).Nodup) {x y : α × β}
    (hx : x ∈ l) (hy : y ∈ l) (he : x.1 = y.1) : x = y := by
  induction l with
  | nil => cases hx
  | cons a t ih =>
    rw [List.map_cons, List.nodup_cons] at h
    rcases List.mem_cons.mp hx with rfl | hx2
    · rcases List.mem_cons.mp hy with rfl | hy2
      · rfl
      · exact absurd (he ▸ List.mem_map_of_mem Prod.fst hy2) h.1
    · rcases List.mem_cons.mp hy with rfl | hy2
      · exact absurd (he ▸ List.mem_map_of_mem Prod.fst hx2) h.1
      · exact ih h.2 hx2 hy2

/-! ## Frame transfer for `treeUnderB` -/

theorem treeUnderChB_congr_of {σ1 σ2 : DriverState} {p : JStr} {ch : List (JStr × FTree)}
    (h : ∀ c ∈ ch, treeUnderB σ2 (joinG p c.1) c.2 = treeUnderB σ1 (joinG p c.1) c.2) :
    treeUnderChB σ2 p ch = treeUnderChB σ1 p ch := by
  induction ch with
  | nil => rfl
  | cons a t ih =>
    rw [treeUnderChB, treeUnderChB, h a (List.mem_cons_self _ _),
      ih (fun c hc => h c (List.mem_cons_of_mem _ hc))]

theorem treeUnder_congr : ∀ (k : Nat) (t : FTree), FTree.depth t ≤ k →
    ∀ (p : JStr) (σ1 σ2 : DriverState),
      (∀ q, subPath p q = true →
        findDescriptor σ2 q = findDescriptor σ1 q ∧
          mapGet σ2.content q = mapGet σ1.content q) →
      treeUnderB σ2 p t = treeUnderB σ1 p t := by
  intro k
  induction k with
  | zero =>
    intro t hd p σ1 σ2 hfr
    cases t with
    | file c =>
      rw [treeUnderB, treeUnderB, (hfr p (subPath_refl p)).1, (hfr p (subPath_refl p)).2]
    | dir ch =>
      rw [FTree.depth] at hd
      omega
  | succ k ih =>
    intro t hd p σ1 σ2 hfr
    cases t with
    | file c =>
      rw [treeUnderB, treeUnderB, (hfr p (subPath_refl p)).1, (hfr p (subPath_refl p)).2]
    | dir ch =>
      rw [treeUnderB, treeUnderB, (hfr p (subPath_refl p)).1]
      have hch : treeUnderChB σ2 p ch = treeUnderChB σ1 p ch := by
        apply treeUnderChB_congr_of
        intro c hc
        apply ih c.2
        · rw [FTree.depth] at hd
          have := depth_le_depthL hc
          omega
        · intro q hq
          exact hfr q (subPath_trans (subPath_joinG_self p c.1) hq)
      rw [hch]

/-! ## The facade listing of a directory -/

theorem memListDirectory_eq (σ0 : DriverState) (p : JStr) :
    memListDirectory σ0 p = (σ0.descriptors.filter
      (fun d => parentPath d.path == cleanRoot p && d.path != cleanRoot p)).map
        (fun d => ⟨d⟩) := rfl

theorem fix_name (f : VFile) (mp : JStr) :
    (fixDescriptorPath f mp).descriptor.name = f.descriptor.name := by
  unfold fixDescriptorPath
  by_cases h : (mp == js "/") = true
  · rw [if_pos h]
  · rw [if_neg h]

theorem facade_list_names (σ0 : DriverState) (p mp : JStr) :
    (((memListDirectory σ0 p).map (fun f => fixDescriptorPath f mp)).filter
      (fun f => f.descriptor.name != js "/")).map (fun f => f.descriptor.name) =
    keptNames σ0 p := by
  rw [memListDirectory_eq]
  unfold keptNames
  rw [List.map_map, List.filter_map, List.map_map, List.filter_filter]
  have hpred : ∀ d ∈ σ0.descriptors,
      (((fun f : VFile => f.descriptor.name != js "/") ∘
        (fun f => fixDescriptorPath f mp) ∘ (fun d => (⟨d⟩ : VFile))) d &&
        (parentPath d.path == cleanRoot p && d.path != cleanRoot p)) =
      (parentPath d.path == cleanRoot p && d.path != cleanRoot p && d.name != js "/") := by
    intro d _
    have hcomp : ((fun f : VFile => f.descriptor.name != js "/") ∘
        (fun f => fixDescriptorPath f mp) ∘ (fun d => (⟨d⟩ : VFile))) d =
        (d.name != js "/") := by
      simp only [Function.comp_apply]
      rw [fix_name]
    rw [hcomp]
    exact Bool.and_comm _ _
  rw [List.filter_congr hpred]
  apply List.map_congr_left
  intro d hd
  show (fixDescriptorPath ⟨d⟩ mp).descriptor.name = d.name
  rw [fix_name]

theorem facade_list_mem {σ0 : DriverState} {p mp : JStr} {f : VFile}
    (hf : f ∈ ((memListDirectory σ0 p).map (fun f => fixDescriptorPath f mp)).filter
      (fun f2 => f2.descriptor.name != js "/")) :
    ∃ d ∈ σ0.descriptors,
      (parentPath d.path == cleanRoot p && d.path != cleanRoot p &&
        d.name != js "/") = true ∧
      f.descriptor.name = d.name := by
  rcases List.mem_filter.mp hf with ⟨hmem, hname⟩
  rcases List.mem_map.mp hmem with ⟨f1, hf1, rfl⟩
  rw [memListDirectory_eq] at hf1
  rcases List.mem_map.mp hf1 with ⟨d, hd, rfl⟩
  rcases List.mem_filter.mp hd with ⟨hdmem, hdpred⟩
  refine ⟨d, hdmem, ?_, fix_name _ _⟩
  rw [Bool.and_eq_true_iff]
  rw [fix_name] at hname
  exact ⟨hdpred, hname⟩

theorem keptNames_mem_facade {σ0 : DriverState} {p n : JStr} (mp : JStr)
    (hn : n ∈ keptNames σ0 p) :
    ∃ f ∈ ((memListDirectory σ0 p).map (fun f => fixDescriptorPath f mp)).filter
      (fun f2 => f2.descriptor.name != js "/"), f.descriptor.name = n := by
  rw [← facade_list_names σ0 p mp] at hn
  rcases List.mem_map.mp hn with ⟨f, hf, rfl⟩
  exact ⟨f, hf, rfl⟩

theorem child_in_keptNames {σ0 : DriverState} {p n : JStr} {d : FileDescriptor}
    (hn : SegOk n = true)
    (hfd : findDescriptor σ0 (joinG p n) = some d) (hname : d.name = n) :
    n ∈ keptNames σ0 p := by
  rcases findDescriptor_some_mem hfd with ⟨hmem, hpath⟩
  rcases SegOk_parts hn with ⟨hne, hsf⟩
  unfold keptNames
  rw [← hname]
  apply List.mem_map_of_mem
  rw [List.mem_filter]
  refine ⟨hmem, ?_⟩
  rw [Bool.and_eq_true_iff, Bool.and_eq_true_iff]
  refine ⟨⟨?_, ?_⟩, ?_⟩
  · rw [hpath]
    simp [parentPath_joinG hsf]
  · rw [hpath]
    have hne2 : ¬ joinG p n = cleanRoot p := by
      intro hc
      have hl := congrArg List.length hc
      rw [joinG_cons] at hl
      simp [List.length_append] at hl
    simpa using hne2
  · rw [hname]
    have hne3 : ¬ n = js "/" := by
      intro hc
      exact hsf '/' (by rw [hc]; exact List.mem_cons_self _ _) rfl
    simpa using hne3

/-! ## Driver and facade step lemmas -/

theorem memCreateDirectory_fresh {σ0 : DriverState} {p : JStr} (now : Nat)
    (h : findDescriptor σ0 p = none) :
    memCreateDirectory σ0 now p = (true,
      { σ0 with descriptors := σ0.descriptors ++
        [{ path := p, parent := -1, name := jsName p, size := 0,
           isDirectory := true, createdAt := now, modifiedAt := now }] }) := by
  unfold memCreateDirectory
  rw [h]

theorem memCreateFile_fresh {σ0 : DriverState} {p : JStr} (now : Nat)
    (h : findDescriptor σ0 p = none) :
    memCreateFile σ0 now p = (some ⟨{ path := p, parent := -1, name := jsName p, size := 0,
                                      isDirectory := false, createdAt := now,
                                      modifiedAt := now }⟩,
      { descriptors := σ0.descriptors ++
        [{ path := p, parent := -1, name := jsName p, size := 0,
           isDirectory := false, createdAt := now, modifiedAt := now }],
        content := mapSet σ0.content p [] }) := by
  unfold memCreateFile
  rw [h]

theorem memWriteFile_eq {σ0 : DriverState} {p : JStr} {fd : FileDescriptor} (now : Nat)
    (data : List Nat) (h : findDescriptor σ0 p = some fd) (hdir : fd.isDirectory = false) :
    memWriteFile σ0 now p data = (true,
      { descriptors := updFirst (fun d2 => d2.path == p)
          (fun d2 => { d2 with size := (data.length : Int), modifiedAt := now })
          σ0.descriptors,
        content := mapSet σ0.content p data }) := by
  unfold memWriteFile
  rw [h]
  simp [hdir]

theorem memStat_eq {σ0 : DriverState} {p : JStr} {fd : FileDescriptor}
    (h : findDescriptor σ0 p = some fd) :
    memStat σ0 p = some { size := fd.size, isDirectory := fd.isDirectory,
                          createdAt := fd.createdAt, modifiedAt := fd.modifiedAt } := by
  unfold memStat
  rw [h]
  rfl

theorem memReadFile_eq {σ0 : DriverState} {p : JStr} {fd : FileDescriptor}
    (h : findDescriptor σ0 p = some fd) (hdir : fd.isDirectory = false) :
    memReadFile σ0 p = mapGet σ0.content p := by
  unfold memReadFile
  rw [h]
  simp [hdir]

theorem vfsCreateDirectory_eq [Inhabited σ] (D : DriverOps σ) {vfs : CoreVFS}
    {w : World σ} {now : Nat} {path : JStr} {r : ResolvedPath}
    (hres : resolveVFS vfs path = some r) :
    vfsCreateDirectory D vfs w now path =
      (.ok (D.createDirectory (getDrv w r.driverId) now r.relativePath).1,
       setDrv w r.driverId (D.createDirectory (getDrv w r.driverId) now r.relativePath).2) := by
  simp [vfsCreateDirectory, hres]

theorem vfsCreateFile_eq [Inhabited σ] (D : DriverOps σ) {vfs : CoreVFS}
    {w : World σ} {now : Nat} {path : JStr} {r : ResolvedPath}
    (hres : resolveVFS vfs path = some r) :
    vfsCreateFile D vfs w now path =
      (.ok ((D.createFile (getDrv w r.driverId) now r.relativePath).1.map
        (fun f => fixDescriptorPath f r.mountPath)),
       setDrv w r.driverId (D.createFile (getDrv w r.driverId) now r.relativePath).2) := by
  simp [vfsCreateFile, hres]

theorem vfsListDirectory_eq [Inhabited σ] (D : DriverOps σ) {vfs : CoreVFS}
    {w : World σ} {path : JStr} {r : ResolvedPath}
    (hres : resolveVFS vfs path = some r) :
    vfsListDirectory D vfs w path =
      .ok (((D.listDirectory (getDrv w r.driverId) r.relativePath).map
        (fun f => fixDescriptorPath f r.mountPath)).filter
          (fun f => f.descriptor.name != js "/")) := by
  simp [vfsListDirectory, hres]

/-! ## The cross-device copy invariant -/

/-- Hypotheses of the cross-device copy invariant at one node: the two paths
    resolve to fixed distinct drivers `A` and `B` with constant mount paths, no
    mount point sits strictly inside either subtree, driver `A` holds exactly
    the tree `t` at the source relative path, the tree is well formed and
    shallower than the fuel, and driver `B` is fresh throughout the
    destination region. -/
@[reducible] def copyHyp (vfs : CoreVFS) (A B : Nat) (mpS mpD : JStr) (fuel : Nat)
    (pS pD relS relD : JStr) (w : World DriverState) (t : FTree) : Prop :=
  resolveVFS vfs pS = some ⟨A, relS, mpS⟩ ∧
  resolveVFS vfs pD = some ⟨B, relD, mpD⟩ ∧
  ¬ A = B ∧ B < w.length ∧
  PathOk pS = true ∧ PathOk pD = true ∧
  noMountBelow vfs pS ∧ noMountBelow vfs pD ∧
  treeAtB (getDrv w A) relS t = true ∧
  FTree.wf t = true ∧
  FTree.depth t < fuel ∧
  (∀ d ∈ (getDrv w B).descriptors, subPath relD d.path = false)

/-- Conclusions at one node: the copy returns `ok true`, only driver `B`
    changes, it changes only inside the destination region, and afterwards it
    contains the tree at the destination relative path. -/
@[reducible] def copyConcl (vfs : CoreVFS) (B dFuel fuel now : Nat)
    (pS pD relD : JStr) (w : World DriverState) (t : FTree) : Prop :=
  ∃ w2, vfsCopy inMemOpsV2 vfs dFuel fuel now pS pD w = (.ok true, w2) ∧
    w2.length = w.length ∧
    (∀ i, ¬ i = B → getDrv w2 i = getDrv w i) ∧
    (∀ q, subPath relD q = false →
      findDescriptor (getDrv w2 B) q = findDescriptor (getDrv w B) q ∧
      mapGet (getDrv w2 B).content q = mapGet (getDrv w B).content q) ∧
    (∀ d ∈ (getDrv w2 B).descriptors,
      d ∈ (getDrv w B).descriptors ∨ subPath relD d.path = true) ∧
    treeUnderB (getDrv w2 B) relD t = true

theorem copy_tree_loop (vfs : CoreVFS) (A B : Nat) (mpS mpD : JStr) (dFuel now fuel : Nat)
    (IH : ∀ pS pD relS relD w t,
      copyHyp vfs A B mpS mpD fuel pS pD relS relD w t →
      copyConcl vfs B dFuel fuel now pS pD relD w t)
    (pS pD relS relD : JStr) (ch : List (JStr × FTree)) (σA : DriverState)
    (hresS : resolveVFS vfs pS = some ⟨A, relS, mpS⟩)
    (hresD : resolveVFS vfs pD = some ⟨B, relD, mpD⟩)
    (hAB : ¬ A = B)
    (hPS : PathOk pS = true) (hPD : PathOk pD = true)
    (hnmS : noMountBelow vfs pS) (hnmD : noMountBelow vfs pD)
    (hseg : ∀ c ∈ ch, SegOk c.1 = true)
    (hnodup : (ch.map Prod.fst).Nodup)
    (hwf : ∀ c ∈ ch, FTree.wf c.2 = true)
    (hdepth : ∀ c ∈ ch, FTree.depth c.2 < fuel) :
    ∀ (pend : List VFile) (w : World DriverState),
      B < w.length →
      getDrv w A = σA →
      (∀ f ∈ pend, ∃ c ∈ ch, f.descriptor.name = c.1 ∧
        treeAtB σA (joinG relS c.1) c.2 = true) →
      (pend.map (fun f => f.descriptor.name)).Nodup →
      (∀ d ∈ (getDrv w B).descriptors, ∀ f ∈ pend,
        subPath (joinG relD f.descriptor.name) d.path = false) →
      (∀ c ∈ ch, (∃ f ∈ pend, f.descriptor.name = c.1) ∨
        treeUnderB (getDrv w B) (joinG relD c.1) c.2 = true) →
      ∃ w2, vfsCopyChildren (fun a b w3 => vfsCopy inMemOpsV2 vfs dFuel fuel now a b w3)
          pS pD pend w = (.ok (), w2) ∧
        w2.length = w.length ∧
        (∀ i, ¬ i = B → getDrv w2 i = getDrv w i) ∧
        (∀ q, (∀ f ∈ pend, subPath (joinG relD f.descriptor.name) q = false) →
          findDescriptor (getDrv w2 B) q = findDescriptor (getDrv w B) q ∧
          mapGet (getDrv w2 B).content q = mapGet (getDrv w B).content q) ∧
        (∀ d ∈ (getDrv w2 B).descriptors, d ∈ (getDrv w B).descriptors ∨
          ∃ f ∈ pend, subPath (joinG relD f.descriptor.name) d.path = true) ∧
        (∀ c ∈ ch, treeUnderB (getDrv w2 B) (joinG relD c.1) c.2 = true) := by
  intro pend
  induction pend with
  | nil =>
    intro w hB hA hpend hnd hfresh hdone
    refine ⟨w, rfl, rfl, fun i _ => rfl, fun q _ => ⟨rfl, rfl⟩, fun d hd => Or.inl hd, ?_⟩
    intro c hc
    rcases hdone c hc with ⟨f, hf, _⟩ | h
    · cases hf
    · exact h
  | cons f rest ih =>
    intro w hB hA hpend hnd hfresh hdone
    rcases hpend f (List.mem_cons_self _ _) with ⟨c0, hc0, hname, htreeAt⟩
    have hsegf : SegOk f.descriptor.name = true := by
      rw [hname]
      exact hseg c0 hc0
    have hjS : joinChild pS f.descriptor.name = joinG pS f.descriptor.name :=
      joinChild_eq hPS hsegf
    have hjD : joinChild pD f.descriptor.name = joinG pD f.descriptor.name :=
      joinChild_eq hPD hsegf
    rcases noMountBelow_join hsegf hnmS with ⟨hnotS, hnmS2⟩
    rcases noMountBelow_join hsegf hnmD with ⟨hnotD, hnmD2⟩
    have hresS2 := resolve_step hresS hPS hsegf hnotS
    have hresD2 := resolve_step hresD hPD hsegf hnotD
    have hchild : copyHyp vfs A B mpS mpD fuel (joinG pS f.descriptor.name)
        (joinG pD f.descriptor.name) (joinG relS f.descriptor.name)
        (joinG relD f.descriptor.name) w c0.2 := by
      refine ⟨hresS2, hresD2, hAB, hB, PathOk_joinG hPS hsegf, PathOk_joinG hPD hsegf,
        hnmS2, hnmD2, ?_, hwf c0 hc0, hdepth c0 hc0, ?_⟩
      · rw [hA, hname]
        exact htreeAt
      · intro d hd
        exact hfresh d hd f (List.mem_cons_self _ _)
    rcases IH _ _ _ _ _ _ hchild with ⟨w1, hrun, hlen1, hfrI1, hfrQ1, hnew1, hunder1⟩
    have hstep : vfsCopyChildren (fun a b w3 => vfsCopy inMemOpsV2 vfs dFuel fuel now a b w3)
        pS pD (f :: rest) w =
        vfsCopyChildren (fun a b w3 => vfsCopy inMemOpsV2 vfs dFuel fuel now a b w3)
          pS pD rest w1 := by
      rw [vfsCopyChildren]
      simp only [hjS, hjD, hrun]
    have hB1 : B < w1.length := by
      rw [hlen1]
      exact hB
    have hA1 : getDrv w1 A = σA := by
      rw [hfrI1 A hAB, hA]
    have hnd2 : ((f :: rest).map (fun g => g.descriptor.name)).Nodup := hnd
    rw [List.map_cons, List.nodup_cons] at hnd2
    have hfresh1 : ∀ d ∈ (getDrv w1 B).descriptors, ∀ g ∈ rest,
        subPath (joinG relD g.descriptor.name) d.path = false := by
      intro d hd g hg
      rcases hpend g (List.mem_cons_of_mem _ hg) with ⟨cg, hcg, hnameg, _⟩
      have hsegg : SegOk g.descriptor.name = true := by
        rw [hnameg]
        exact hseg cg hcg
      rcases hnew1 d hd with hold | hreg
      · exact hfresh d hold g (List.mem_cons_of_mem _ hg)
      · have hne : ¬ f.descriptor.name = g.descriptor.name := by
          intro hc
          exact hnd2.1 (hc ▸ List.mem_map_of_mem (fun g2 => g2.descriptor.name) hg)
        exact subPath_disjoint hsegf hsegg hne hreg
    have hdone1 : ∀ c ∈ ch, (∃ g ∈ rest, g.descriptor.name = c.1) ∨
        treeUnderB (getDrv w1 B) (joinG relD c.1) c.2 = true := by
      intro c hc
      by_cases hceq : c.1 = f.descriptor.name
      · right
        have hcc0 : c = c0 := nodup_fst_eq hnodup hc hc0 (by rw [hceq, hname])
        rw [hcc0]
        rw [hname] at hunder1
        exact hunder1
      · rcases hdone c hc with ⟨g, hg, hgname⟩ | hund
        · rcases List.mem_cons.mp hg with rfl | hgrest
          · exact absurd hgname.symm hceq
          · exact Or.inl ⟨g, hgrest, hgname⟩
        · right
          have hframe : ∀ q, subPath (joinG relD c.1) q = true →
              findDescriptor (getDrv w1 B) q = findDescriptor (getDrv w B) q ∧
              mapGet (getDrv w1 B).content q = mapGet (getDrv w B).content q := by
            intro q hq
            exact hfrQ1 q (subPath_disjoint (hseg c hc) hsegf
              (fun h2 => hceq h2) hq)
          rw [treeUnder_congr (FTree.depth c.2) c.2 (Nat.le_refl _) (joinG relD c.1)
            (getDrv w B) (getDrv w1 B) hframe]
          exact hund
    have hpend1 : ∀ g ∈ rest, ∃ c ∈ ch, g.descriptor.name = c.1 ∧
        treeAtB σA (joinG relS c.1) c.2 = true := by
      intro g hg
      exact hpend g (List.mem_cons_of_mem _ hg)
    rcases ih w1 hB1 hA1 hpend1 hnd2.2 hfresh1 hdone1 with
      ⟨w2, hrun2, hlen2, hfrI2, hfrQ2, hnew2, hunder2⟩
    refine ⟨w2, ?_, ?_, ?_, ?_, ?_, hunder2⟩
    · rw [hstep]
      exact hrun2
    · rw [hlen2, hlen1]
    · intro i hi
      rw [hfrI2 i hi, hfrI1 i hi]
    · intro q hq
      have hq1 := hq f (List.mem_cons_self _ _)
      have hq2 : ∀ g ∈ rest, subPath (joinG relD g.descriptor.name) q = false :=
        fun g hg => hq g (List.mem_cons_of_mem _ hg)
      rcases hfrQ1 q hq1 with ⟨e1, e2⟩
      rcases hfrQ2 q hq2 with ⟨e3, e4⟩
      exact ⟨e3.trans e1, e4.trans e2⟩
    · intro d hd
      rcases hnew2 d hd with hd1 | ⟨g, hg, hreg⟩
      · rcases hnew1 d hd1 with hold | hreg
        · exact Or.inl hold
        · exact Or.inr ⟨f, List.mem_cons_self _ _, hreg⟩
      · exact Or.inr ⟨g, List.mem_cons_of_mem _ hg, hreg⟩

/-- The fresh descriptor the in-memory driver journals for a newly created
    file or directory at `p` (the source builds this record inline). -/
def newFd (p : JStr) (sz : Int) (dir : Bool) (now : Nat) : FileDescriptor :=
  { path := p, parent := -1, name := jsName p, size := sz, isDirectory := dir,
    createdAt := now, modifiedAt := now }

theorem memCreateDirectory_fresh2 {σ0 : DriverState} {p : JStr} (now : Nat)
    (h : findDescriptor σ0 p = none) :
    memCreateDirectory σ0 now p =
      (true, ⟨σ0.descriptors ++ [newFd p 0 true now], σ0.content⟩) := by
  rw [memCreateDirectory_fresh now h]
  rfl

theorem memCreateFile_fresh2 {σ0 : DriverState} {p : JStr} (now : Nat)
    (h : findDescriptor σ0 p = none) :
    memCreateFile σ0 now p = (some ⟨newFd p 0 false now⟩,
      ⟨σ0.descriptors ++ [newFd p 0 false now], mapSet σ0.content p []⟩) := by
  rw [memCreateFile_fresh now h]
  rfl

theorem copy_tree_main (vfs : CoreVFS) (A B : Nat) (mpS mpD : JStr) (dFuel now : Nat) :
    ∀ (fuel : Nat) (pS pD relS relD : JStr) (w : World DriverState) (t : FTree),
      copyHyp vfs A B mpS mpD fuel pS pD relS relD w t →
      copyConcl vfs B dFuel fuel now pS pD relD w t := by
  intro fuel
  induction fuel with
  | zero =>
    intro pS pD relS relD w t h
    rcases h with ⟨_, _, _, _, _, _, _, _, _, _, hdepth, _⟩
    omega
  | succ fuel ihfuel =>
    intro pS pD relS relD w t h
    obtain ⟨hresS, hresD, hAB, hB, hPS, hPD, hnmS, hnmD, htree, hwf, hdepth, hfresh⟩ := h
    have hABb : (A == B) = false := by simpa using hAB
    have hfdB : findDescriptor (getDrv w B) relD = none := by
      rw [findDescriptor_none_iff]
      intro d hd hc
      have hx := hfresh d hd
      rw [hc, subPath_refl] at hx
      cases hx
    cases t with
    | file c =>
      rcases treeAtB_file_parts htree with ⟨⟨fdS, hfdS, hfdSdir⟩, hcont⟩
      have hstat : inMemOpsV2.stat (getDrv w A) relS =
          some { size := fdS.size, isDirectory := fdS.isDirectory,
                 createdAt := fdS.createdAt, modifiedAt := fdS.modifiedAt } :=
        memStat_eq hfdS
      have hread : inMemOpsV2.readFile (getDrv w A) relS = some c := by
        show memReadFile (getDrv w A) relS = some c
        rw [memReadFile_eq hfdS hfdSdir, hcont]
      have hvcf : vfsCreateFile inMemOpsV2 vfs w now pD =
          (.ok (some (fixDescriptorPath ⟨newFd relD 0 false now⟩ mpD)),
            setDrv w B ⟨(getDrv w B).descriptors ++ [newFd relD 0 false now],
              mapSet (getDrv w B).content relD []⟩) := by
        rw [vfsCreateFile_eq inMemOpsV2 hresD]
        simp only
        rw [show inMemOpsV2.createFile (getDrv w B) now relD =
          memCreateFile (getDrv w B) now relD from rfl]
        rw [memCreateFile_fresh2 now hfdB]
        rfl
      have hfd1 : findDescriptor
          ⟨(getDrv w B).descriptors ++ [newFd relD 0 false now],
            mapSet (getDrv w B).content relD []⟩ relD = some (newFd relD 0 false now) := by
        show ((getDrv w B).descriptors ++ [newFd relD 0 false now]).find?
          (fun d => d.path == relD) = some (newFd relD 0 false now)
        rw [find?_append_none _ hfdB]
        rw [List.find?_cons_of_pos _ (by simp [newFd])]
      have hupd : updFirst (fun d2 => d2.path == relD)
          (fun d2 => { d2 with size := (c.length : Int), modifiedAt := now })
          ((getDrv w B).descriptors ++ [newFd relD 0 false now]) =
          (getDrv w B).descriptors ++ [newFd relD (c.length : Int) false now] := by
        rw [updFirst_append_none _ _ hfdB]
        congr 1
        rw [updFirst, if_pos (by simp [newFd])]
        rfl
      have hwrite : inMemOpsV2.writeFile
          ⟨(getDrv w B).descriptors ++ [newFd relD 0 false now],
            mapSet (getDrv w B).content relD []⟩ now relD c =
          (true, ⟨(getDrv w B).descriptors ++ [newFd relD (c.length : Int) false now],
            mapSet (mapSet (getDrv w B).content relD []) relD c⟩) := by
        show memWriteFile _ now relD c = _
        rw [memWriteFile_eq now c hfd1 rfl]
        simp only
        rw [hupd]
      have hgw1 : getDrv (setDrv w B
          ⟨(getDrv w B).descriptors ++ [newFd relD 0 false now],
            mapSet (getDrv w B).content relD []⟩) B =
          ⟨(getDrv w B).descriptors ++ [newFd relD 0 false now],
            mapSet (getDrv w B).content relD []⟩ :=
        getDrv_setDrv_self hB _
      have hcopy : vfsCopy inMemOpsV2 vfs dFuel (fuel + 1) now pS pD w =
          (.ok true, setDrv (setDrv w B
            ⟨(getDrv w B).descriptors ++ [newFd relD 0 false now],
              mapSet (getDrv w B).content relD []⟩) B
            ⟨(getDrv w B).descriptors ++ [newFd relD (c.length : Int) false now],
              mapSet (mapSet (getDrv w B).content relD []) relD c⟩) := by
        simp only [vfsCopy, hresS, hresD, hABb, Bool.false_eq_true, if_false,
          hstat, hfdSdir, hread, hvcf, hgw1, hwrite]
      have hgw2 : getDrv (setDrv (setDrv w B
          ⟨(getDrv w B).descriptors ++ [newFd relD 0 false now],
            mapSet (getDrv w B).content relD []⟩) B
          ⟨(getDrv w B).descriptors ++ [newFd relD (c.length : Int) false now],
            mapSet (mapSet (getDrv w B).content relD []) relD c⟩) B =
          ⟨(getDrv w B).descriptors ++ [newFd relD (c.length : Int) false now],
            mapSet (mapSet (getDrv w B).content relD []) relD c⟩ :=
        getDrv_setDrv_self (by rw [length_setDrv]; exact hB) _
      have hfind2 : findDescriptor
          ⟨(getDrv w B).descriptors ++ [newFd relD (c.length : Int) false now],
            mapSet (mapSet (getDrv w B).content relD []) relD c⟩ relD =
          some (newFd relD (c.length : Int) false now) := by
        show ((getDrv w B).descriptors ++ [newFd relD (c.length : Int) false now]).find?
          (fun d => d.path == relD) = some (newFd relD (c.length : Int) false now)
        rw [find?_append_none _ hfdB]
        rw [List.find?_cons_of_pos _ (by simp [newFd])]
      refine ⟨_, hcopy, ?_, ?_, ?_, ?_, ?_⟩
      · rw [length_setDrv, length_setDrv]
      · intro i hi
        rw [getDrv_setDrv_ne _ hi, getDrv_setDrv_ne _ hi]
      · intro q hq
        have hqne : ¬ q = relD := by
          intro hc
          rw [hc, subPath_refl] at hq
          cases hq
        rw [hgw2]
        constructor
        · show ((getDrv w B).descriptors ++ [newFd relD (c.length : Int) false now]).find?
            (fun d => d.path == q) = _
          rw [find?_append_singleton_ne _ (by
            simp [newFd]
            exact fun h => hqne h.symm)]
          rfl
        · show mapGet (mapSet (mapSet (getDrv w B).content relD []) relD c) q = _
          rw [mapGet_set_ne _ _ _ _ hqne, mapGet_set_ne _ _ _ _ hqne]
      · intro d hd
        rw [hgw2] at hd
        rcases List.mem_append.mp hd with h | h
        · exact Or.inl h
        · right
          have hd2 : d = newFd relD (c.length : Int) false now := by simpa using h
          rw [hd2]
          show subPath relD (newFd relD (c.length : Int) false now).path = true
          rw [show (newFd relD (c.length : Int) false now).path = relD from rfl]
          exact subPath_refl relD
      · rw [hgw2]
        rw [treeUnderB, hfind2]
        simp [newFd, mapGet_set_self]
    | dir ch =>
      rcases treeAtB_dir_parts htree with ⟨⟨fdS, hfdS, hfdSdir⟩, hknd, hexact, hchB⟩
      rcases wf_dir_parts hwf with ⟨hsegC, hnodupC, hwfch⟩
      have hdepthch : ∀ c ∈ ch, FTree.depth c.2 < fuel := by
        intro c hc
        have h1 := depth_le_depthL hc
        rw [FTree.depth] at hdepth
        omega
      have hstat : inMemOpsV2.stat (getDrv w A) relS =
          some { size := fdS.size, isDirectory := fdS.isDirectory,
                 createdAt := fdS.createdAt, modifiedAt := fdS.modifiedAt } :=
        memStat_eq hfdS
      have hvcd : vfsCreateDirectory inMemOpsV2 vfs w now pD = (.ok true,
          setDrv w B ⟨(getDrv w B).descriptors ++ [newFd relD 0 true now],
            (getDrv w B).content⟩) := by
        rw [vfsCreateDirectory_eq inMemOpsV2 hresD]
        simp only
        rw [show inMemOpsV2.createDirectory (getDrv w B) now relD =
          memCreateDirectory (getDrv w B) now relD from rfl]
        rw [memCreateDirectory_fresh2 now hfdB]
      have hgw1A : getDrv (setDrv w B ⟨(getDrv w B).descriptors ++ [newFd relD 0 true now],
          (getDrv w B).content⟩) A = getDrv w A := getDrv_setDrv_ne _ hAB _
      have hgw1B : getDrv (setDrv w B ⟨(getDrv w B).descriptors ++ [newFd relD 0 true now],
          (getDrv w B).content⟩) B = ⟨(getDrv w B).descriptors ++ [newFd relD 0 true now],
          (getDrv w B).content⟩ := getDrv_setDrv_self hB _
      set L : List VFile := ((memListDirectory (getDrv w A) relS).map
        (fun f => fixDescriptorPath f mpS)).filter
          (fun f2 => f2.descriptor.name != js "/") with hLdef
      have hvld : vfsListDirectory inMemOpsV2 vfs
          (setDrv w B ⟨(getDrv w B).descriptors ++ [newFd relD 0 true now],
            (getDrv w B).content⟩) pS = .ok L := by
        rw [vfsListDirectory_eq inMemOpsV2 hresS]
        simp only [hgw1A]
        rw [hLdef]
        rfl
      have hpendL : ∀ f ∈ L, ∃ c ∈ ch, f.descriptor.name = c.1 ∧
          treeAtB (getDrv w A) (joinG relS c.1) c.2 = true := by
        intro f hf
        rw [hLdef] at hf
        rcases facade_list_mem hf with ⟨d, hdmem, hdpred, hfname⟩
        rcases hexact d hdmem hdpred with ⟨c, hc, hdpath, hdname⟩
        exact ⟨c, hc, by rw [hfname, hdname], (treeAtChB_mem hchB c hc).2⟩
      have hsegL : ∀ f ∈ L, SegOk f.descriptor.name = true := by
        intro f hf
        rcases hpendL f hf with ⟨c, hc, hfname, _⟩
        rw [hfname]
        exact hsegC c hc
      have hndL : (L.map (fun f => f.descriptor.name)).Nodup := by
        rw [hLdef, facade_list_names]
        exact hknd
      have hfreshL : ∀ d ∈ (getDrv (setDrv w B
          ⟨(getDrv w B).descriptors ++ [newFd relD 0 true now],
            (getDrv w B).content⟩) B).descriptors, ∀ f ∈ L,
          subPath (joinG relD f.descriptor.name) d.path = false := by
        rw [hgw1B]
        intro d hd f hf
        rcases List.mem_append.mp hd with hold | hnew
        · rw [Bool.eq_false_iff]
          intro hc
          have hin : subPath relD d.path = true :=
            subPath_trans (subPath_joinG_self relD f.descriptor.name) hc
          rw [hfresh d hold] at hin
          cases hin
        · have hd2 : d = newFd relD 0 true now := by simpa using hnew
          rw [hd2]
          show subPath (joinG relD f.descriptor.name) (newFd relD 0 true now).path = false
          rw [show (newFd relD 0 true now).path = relD from rfl]
          exact subPath_joinG_not_root (hsegL f hf)
      have hdone0 : ∀ c ∈ ch, (∃ f ∈ L, f.descriptor.name = c.1) ∨
          treeUnderB (getDrv (setDrv w B
            ⟨(getDrv w B).descriptors ++ [newFd relD 0 true now],
              (getDrv w B).content⟩) B) (joinG relD c.1) c.2 = true := by
        intro c hc
        left
        rcases treeAtChB_mem hchB c hc with ⟨⟨d, hfd, hdname⟩, _⟩
        have hn : c.1 ∈ keptNames (getDrv w A) relS :=
          child_in_keptNames (hsegC c hc) hfd hdname
        rcases keptNames_mem_facade mpS hn with ⟨f, hf, hfname⟩
        refine ⟨f, ?_, hfname⟩
        rw [hLdef]
        exact hf
      rcases copy_tree_loop vfs A B mpS mpD dFuel now fuel ihfuel pS pD relS relD ch
          (getDrv w A) hresS hresD hAB hPS hPD hnmS hnmD hsegC hnodupC hwfch hdepthch L
          (setDrv w B ⟨(getDrv w B).descriptors ++ [newFd relD 0 true now],
            (getDrv w B).content⟩)
          (by rw [length_setDrv]; exact hB) hgw1A hpendL hndL hfreshL hdone0 with
        ⟨w2, hlrun, hlen2, hfrI2, hfrQ2, hnew2, hunder2⟩
      have hcopy : vfsCopy inMemOpsV2 vfs dFuel (fuel + 1) now pS pD w = (.ok true, w2) := by
        simp only [vfsCopy, hresS, hresD, hABb, Bool.false_eq_true, if_false,
          hstat, hfdSdir, if_true, hvcd, hvld, hlrun]
      refine ⟨w2, hcopy, ?_, ?_, ?_, ?_, ?_⟩
      · rw [hlen2, length_setDrv]
      · intro i hi
        rw [hfrI2 i hi, getDrv_setDrv_ne _ hi]
      · intro q hq
        have hqout : ∀ f ∈ L, subPath (joinG relD f.descriptor.name) q = false := by
          intro f hf
          rw [Bool.eq_false_iff]
          intro hc
          have hin : subPath relD q = true :=
            subPath_trans (subPath_joinG_self relD f.descriptor.name) hc
          rw [hq] at hin
          cases hin
        have hqne : ¬ q = relD := by
          intro hc
          rw [hc, subPath_refl] at hq
          cases hq
        rcases hfrQ2 q hqout with ⟨e1, e2⟩
        rw [e1, e2, hgw1B]
        constructor
        · show ((getDrv w B).descriptors ++ [newFd relD 0 true now]).find?
            (fun d => d.path == q) = _
          rw [find?_append_singleton_ne _ (by
            simp [newFd]
            exact fun h => hqne h.symm)]
          rfl
        · rfl
      · intro d hd
        rcases hnew2 d hd with hd1 | ⟨f, hf, hreg⟩
        · rw [hgw1B] at hd1
          rcases List.mem_append.mp hd1 with hold | hnew
          · exact Or.inl hold
          · right
            have hd2 : d = newFd relD 0 true now := by simpa using hnew
            rw [hd2]
            show subPath relD (newFd relD 0 true now).path = true
            rw [show (newFd relD 0 true now).path = relD from rfl]
            exact subPath_refl relD
        · right
          exact subPath_trans (subPath_joinG_self relD f.descriptor.name) hreg
      · rw [treeUnderB]
        have hfindD : findDescriptor (getDrv w2 B) relD = some (newFd relD 0 true now) := by
          have hout : ∀ f ∈ L, subPath (joinG relD f.descriptor.name) relD = false :=
            fun f hf => subPath_joinG_not_root (hsegL f hf)
          rw [(hfrQ2 relD hout).1, hgw1B]
          show ((getDrv w B).descriptors ++ [newFd relD 0 true now]).find?
            (fun d => d.path == relD) = some (newFd relD 0 true now)
          rw [find?_append_none _ hfdB]
          rw [List.find?_cons_of_pos _ (by simp [newFd])]
        rw [hfindD]
        rw [Bool.and_eq_true_iff]
        refine ⟨by simp [newFd], ?_⟩
        rw [treeUnderChB_iff]
        exact hunder2

/-! ## C3: cross-device copy -/

/-- The C3 counterexample mount layout: driver 0 at `/s`, driver 1 at `/d`,
    and driver 0 mounted again at `/d/x`, nested inside the destination. -/
def c3Mounts : CoreVFS × World DriverState :=
  applyMounts inMemOpsV1 1 [(0, js "/s"), (1, js "/d"), (0, js "/d/x")]
    (⟨[]⟩, [⟨[], []⟩, ⟨[], []⟩])

/-- The worlds after creating `/s/x` with content `[1]`. -/
def c3Setup : World DriverState :=
  (vfsWriteFile inMemOpsV1 c3Mounts.1
    (vfsCreateFile inMemOpsV1 c3Mounts.1 c3Mounts.2 2 (js "/s/x")).2 3 (js "/s/x") [1]).2

/-- The run of `copy("/s", "/d")` on that configuration. -/
def c3Res : Except VErr Bool × World DriverState :=
  vfsCopy inMemOpsV1 c3Mounts.1 9 9 4 (js "/s") (js "/d") c3Setup

/-- C3 counterexample (the claim as stated is false): `/s` resolves to driver 0
    and `/d` to driver 1, the source is a directory holding the file `/s/x`
    with bytes `[1]`, and `copy("/s", "/d")` returns `ok true` — yet the copied
    child `/d/x` resolves into the mount nested at `/d/x` (which maps back to
    driver 0), so reading `/d/x` afterwards yields `none` instead of the source
    bytes: the subtree is not reproduced at the destination. -/
theorem copy_cross_device_counterexample :
    (resolveVFS c3Mounts.1 (js "/s")).map ResolvedPath.driverId = some 0 ∧
    (resolveVFS c3Mounts.1 (js "/d")).map ResolvedPath.driverId = some 1 ∧
    vfsStat inMemOpsV1 c3Mounts.1 c3Setup (js "/s") =
      .ok (some ⟨0, true, 1, 1⟩) ∧
    vfsReadFile inMemOpsV1 c3Mounts.1 c3Setup (js "/s/x") = .ok (some [1]) ∧
    c3Res.1 = .ok true ∧
    vfsReadFile inMemOpsV1 c3Mounts.1 c3Res.2 (js "/d/x") = .ok none :=
  ⟨rfl, rfl, rfl, rfl, rfl, rfl⟩

/-- C3 (amended): when the source path resolves to driver `A` and the
    destination to a different driver `B`, no mount point sits strictly below
    either path, driver `A` holds exactly the well-formed tree `t` at the
    source relative path, the recursion fuel exceeds the tree depth, and driver
    `B` holds nothing in the destination region, then `copy` returns `ok true`,
    leaves the source driver untouched, and reproduces the full subtree —
    nested directories and byte-for-byte file contents — at the destination
    relative path.  A single cross-device file copy is the `t = FTree.file c`
    instance. -/
theorem copy_cross_device_reproduces_tree
    (vfs : CoreVFS) (A B : Nat) (mpS mpD relS relD pS pD : JStr)
    (w : World DriverState) (t : FTree) (dFuel fuel now : Nat)
    (hresS : resolveVFS vfs pS = some ⟨A, relS, mpS⟩)
    (hresD : resolveVFS vfs pD = some ⟨B, relD, mpD⟩)
    (hAB : ¬ A = B) (hB : B < w.length)
    (hPS : PathOk pS = true) (hPD : PathOk pD = true)
    (hnmS : noMountBelow vfs pS) (hnmD : noMountBelow vfs pD)
    (htree : treeAtB (getDrv w A) relS t = true)
    (hwf : FTree.wf t = true) (hfuel : FTree.depth t < fuel)
    (hfresh : ∀ d ∈ (getDrv w B).descriptors, subPath relD d.path = false) :
    ∃ w2, vfsCopy inMemOpsV2 vfs dFuel fuel now pS pD w = (.ok true, w2) ∧
      getDrv w2 A = getDrv w A ∧
      treeUnderB (getDrv w2 B) relD t = true := by
  rcases copy_tree_main vfs A B mpS mpD dFuel now fuel pS pD relS relD w t
    ⟨hresS, hresD, hAB, hB, hPS, hPD, hnmS, hnmD, htree, hwf, hfuel, hfresh⟩ with
    ⟨w2, h1, _, hfrI, _, _, hunder⟩
  exact ⟨w2, h1, hfrI A hAB, hunder⟩

/-- C3 witness: driver 1 mounted at `/mnt` holds the directory tree
    `{ a ↦ file [7, 8] }` at its root; copying `/mnt` to `/dir` (driver 0,
    mounted at `/`) succeeds and reproduces the tree under `/dir`. -/
theorem copy_cross_device_reproduces_tree_witness :
    ∃ w2, vfsCopy inMemOpsV2 ⟨[⟨js "/mnt", 1⟩, ⟨js "/", 0⟩]⟩ 0 2 7 (js "/mnt") (js "/dir")
        [⟨[rootDirFd], []⟩, ⟨[rootDirFd, fileAFd], [(js "/a", [7, 8])]⟩] = (.ok true, w2) ∧
      getDrv w2 1 = getDrv [⟨[rootDirFd], []⟩, ⟨[rootDirFd, fileAFd], [(js "/a", [7, 8])]⟩] 1 ∧
      treeUnderB (getDrv w2 0) (js "/dir") (.dir [(js "a", .file [7, 8])]) = true :=
  copy_cross_device_reproduces_tree ⟨[⟨js "/mnt", 1⟩, ⟨js "/", 0⟩]⟩ 1 0 (js "/mnt") (js "/")
    (js "/") (js "/dir") (js "/mnt") (js "/dir")
    [⟨[rootDirFd], []⟩, ⟨[rootDirFd, fileAFd], [(js "/a", [7, 8])]⟩]
    (.dir [(js "a", .file [7, 8])]) 0 2 7
    (by rfl) (by rfl) (by decide) (by decide) (by decide) (by decide)
    (by decide) (by decide) (by decide) (by decide) (by decide) (by decide)
